import Mathlib

/-!
Shallow embedding of the markdown-to-notion sync engine.

Source layout (TypeScript):
- src/md-frontmatter.ts      : frontmatter identity codec
- src/sync-docs-to-notion.ts : path classifier, chunking, per-doc sync engine
- src/notion-helpers.ts      : folder cache, page CRUD traces, concurrency runner
- src/markdown-to-blocks.ts  : block conversion fallback and sanitation
- src/sync-changed-docs.ts   : git-diff change selector
- action entry point         : working-set selection per sync mode

JavaScript strings are modelled as lists of characters (`Str`); JavaScript
records with string keys as insertion-ordered association lists with unique
keys; remote/API effects as explicit oracles and call traces.
-/

namespace MdNotion

/-- JavaScript strings modelled as lists of characters. -/
abbrev Str := List Char

/-- Characters treated as whitespace by JavaScript regex `\s` and
`String.prototype.trim` (ASCII portion; the sources never produce the
exotic Unicode space characters). -/
def jsWhitespace (c : Char) : Bool :=
  c = ' ' ∨ c = '\t' ∨ c = '\n' ∨ c = '\r' ∨ c = '\x0b' ∨ c = '\x0c'

/-- JavaScript regex `\w` character class: `[A-Za-z0-9_]`. -/
def isWordChar (c : Char) : Bool :=
  ('a' ≤ c ∧ c ≤ 'z') ∨ ('A' ≤ c ∧ c ≤ 'Z') ∨ ('0' ≤ c ∧ c ≤ '9') ∨ c = '_'

/-- JavaScript `String.prototype.trim`: drop whitespace from both ends. -/
def jsTrim (s : Str) : Str :=
  ((s.dropWhile jsWhitespace).reverse.dropWhile jsWhitespace).reverse

/-! ## Identity codec (src/md-frontmatter.ts) -/

/-- Splitting on the JavaScript regex `/\r?\n/` (used by
`parseFrontmatterBlock` on the frontmatter block): a separator is either
the two-character sequence CR LF or a lone LF; a lone CR is an ordinary
character. -/
def splitLines : Str → List Str
  | [] => [[]]
  | '\r' :: '\n' :: rest => [] :: splitLines rest
  | '\n' :: rest => [] :: splitLines rest
  | c :: rest =>
    match splitLines rest with
    | [] => [[c]]
    | l :: ls => (c :: l) :: ls

/-- Matching a frontmatter line against `/^(\w+):\s*(.*)$/` from
`parseFrontmatterBlock`: a non-empty run of word characters, a colon, then
whitespace is skipped and the remainder of the line is the raw value. -/
def matchKeyLine (line : Str) : Option (Str × Str) :=
  let key := line.takeWhile isWordChar
  match line.dropWhile isWordChar with
  | ':' :: tail => if key = [] then none else some (key, tail.dropWhile jsWhitespace)
  | _ => none

/-- Global replacement of the two-character sequence backslash-q by q
(the JavaScript `replace(/\\q/g, q)` calls in `parseFrontmatterBlock`). -/
def replaceEsc (q : Char) : Str → Str
  | [] => []
  | '\\' :: c :: rest =>
    if c = q then q :: replaceEsc q rest else '\\' :: replaceEsc q (c :: rest)
  | c :: rest => c :: replaceEsc q rest

/-- Unquoting of a frontmatter value in `parseFrontmatterBlock`: a value that
starts and ends with a double quote, or starts and ends with a single quote,
is stripped of its first and last character (`slice(1, -1)`), then the escape
sequences backslash-singlequote and backslash-doublequote are unescaped. -/
def unquoteValue (v : Str) : Str :=
  if (v.head? = some '"' ∧ v.getLast? = some '"') ∨
      (v.head? = some '\'' ∧ v.getLast? = some '\'') then
    replaceEsc '"' (replaceEsc '\'' v.tail.dropLast)
  else v

/-- JavaScript record assignment `data[key] = value` on an insertion-ordered
record with unique keys: overwrite in place if the key is present, else
append. -/
def recordSet (m : List (Str × Str)) (k v : Str) : List (Str × Str) :=
  if m.any (fun p => p.1 = k) then m.map (fun p => if p.1 = k then (k, v) else p)
  else m ++ [(k, v)]

/-- JavaScript record read `data[key]` (keys are unique, first match). -/
def recordGet : List (Str × Str) → Str → Option Str
  | [], _ => none
  | (k1, v) :: rest, k => if k1 = k then some v else recordGet rest k

/-- Source `parseFrontmatterBlock` (md-frontmatter.ts): split the block into
lines, parse each `key: value` line, trim and unquote the value, and build the
record in line order (the `rawLines` return component is not used by any
caller under verification and is omitted). -/
def parseFrontmatterBlock (block : Str) : List (Str × Str) :=
  (splitLines block).foldl
    (fun data line =>
      match matchKeyLine line with
      | none => data
      | some kr => recordSet data kr.1 (unquoteValue (jsTrim kr.2)))
    []

/-- The trailing `\r?\n?` of `FRONTMATTER_RE` after the closing delimiter:
greedily consume an optional CR then an optional LF. -/
def consumeNl : Str → Str
  | '\r' :: '\n' :: r => r
  | '\r' :: r => r
  | '\n' :: r => r
  | r => r

/-- The lazy group of `FRONTMATTER_RE`: scan for the leftmost position where
`\r?\n---\r?\n?` matches; everything before it is the frontmatter block and
everything after the consumed delimiter is the body. -/
def findClose (s : Str) : Option (Str × Str) :=
  match s with
  | [] => none
  | c :: rest =>
    if c = '\r' ∧ rest.take 4 = ['\n', '-', '-', '-'] then
      some ([], consumeNl (rest.drop 4))
    else if c = '\n' ∧ rest.take 3 = ['-', '-', '-'] then
      some ([], consumeNl (rest.drop 3))
    else
      match findClose rest with
      | none => none
      | some p => some (c :: p.1, p.2)

/-- The opening `---\r?\n` of `FRONTMATTER_RE`. -/
def stripOpen : Str → Option Str
  | '-' :: '-' :: '-' :: '\r' :: '\n' :: r => some r
  | '-' :: '-' :: '-' :: '\n' :: r => some r
  | _ => none

/-- Matching against `FRONTMATTER_RE = /^\s*---\r?\n([\s\S]*?)\r?\n---\r?\n?([\s\S]*)$/`:
returns the captured (block, body) pair when the regex matches. -/
def matchFrontmatter (s : Str) : Option (Str × Str) :=
  match stripOpen (s.dropWhile jsWhitespace) with
  | none => none
  | some t => findClose t

/-- Return type of `parseMdWithNotionId` (`ParsedFrontmatter` in types.ts). -/
structure ParsedFrontmatter where
  body : Str
  notionPageId : Option Str
  data : List (Str × Str)
deriving Repr, DecidableEq

/-- The reserved frontmatter key `NOTION_PAGE_ID_KEY`. -/
def notionPageIdKey : Str := "notion_page_id".toList

/-- Source `parseMdWithNotionId` (md-frontmatter.ts): match the frontmatter
regex; on no match the whole input is the body with an empty record; otherwise
parse the block and extract the reserved key, trimmed, when non-empty. -/
def parseMdWithNotionId (raw : Str) : ParsedFrontmatter :=
  match matchFrontmatter raw with
  | none => ⟨raw, none, []⟩
  | some bl =>
    let data := parseFrontmatterBlock bl.1
    let pageId : Option Str :=
      match recordGet data notionPageIdKey with
      | some v => if jsTrim v ≠ [] then some (jsTrim v) else none
      | none => none
    ⟨bl.2, pageId, data⟩

/-- `replace(/\\/g, '\\\\')` in `escapeYamlValue`: double every backslash. -/
def escBackslash (s : Str) : Str :=
  (s.map (fun c => if c = '\\' then ['\\', '\\'] else [c])).flatten

/-- `replace(/"/g, '\\"')` in `escapeYamlValue`: escape every double quote. -/
def escQuote (s : Str) : Str :=
  (s.map (fun c => if c = '"' then ['\\', '"'] else [c])).flatten

/-- Source `escapeYamlValue` (md-frontmatter.ts): quote the value if it
contains a newline, double quote, backslash or colon, escaping backslashes
then quotes; otherwise return it raw. -/
def escapeYamlValue (s : Str) : Str :=
  if s.any (fun c => c = '\n' ∨ c = '"' ∨ c = '\\' ∨ c = ':') then
    '"' :: (escQuote (escBackslash s) ++ ['"'])
  else s

/-- Source `stringifyMdWithNotionId` (md-frontmatter.ts): set the reserved key
on the existing record, drop empty values, serialise each pair as a
`key: value` line, and emit `---`-delimited frontmatter followed by the body
(no frontmatter when no pairs survive). The claims under verification only
concern string-valued records, so values are modelled as strings. -/
def stringifyMdWithNotionId (body : Str) (existingData : List (Str × Str))
    (pageId : Str) : Str :=
  let data := recordSet existingData notionPageIdKey pageId
  let pairs := data.filter (fun p => p.2 ≠ [])
  let frontLines := pairs.map (fun p => p.1 ++ ':' :: ' ' :: escapeYamlValue p.2)
  if frontLines = [] then body
  else
    ('-' :: '-' :: '-' :: '\n' :: []) ++ List.intercalate ['\n'] frontLines ++
      ('\n' :: '-' :: '-' :: '-' :: '\n' :: []) ++ body

/-- Vocabulary of the amended round-trip claim: a key of the shape the
frontmatter line regex `/^(\w+):\s*(.*)$/` accepts, namely a non-empty run
of word characters. -/
def safeKey (k : Str) : Prop :=
  k ≠ [] ∧ k.all isWordChar

/-- Vocabulary of the amended round-trip claim: a value that the codec
transports unchanged — non-empty (`stringifyMdWithNotionId` drops empty
values), free of newline, carriage return, double quote, backslash and colon
(so `escapeYamlValue` leaves it unquoted and no line or delimiter boundary is
disturbed), carrying no surrounding whitespace (the decoder trims), and not
wrapped in single quotes (the decoder would strip them). -/
def safeValue (v : Str) : Prop :=
  v ≠ [] ∧
  v.all (fun c => ¬(c = '\n' ∨ c = '\r' ∨ c = '"' ∨ c = '\\' ∨ c = ':')) = true ∧
  jsTrim v = v ∧
  ¬(v.head? = some '\'' ∧ v.getLast? = some '\'')

instance safeKeyDecidable (k : Str) : Decidable (safeKey k) := by
  unfold safeKey
  infer_instance

instance safeValueDecidable (v : Str) : Decidable (safeValue v) := by
  unfold safeValue
  infer_instance

/-! ## Path classifier (src/sync-docs-to-notion.ts) -/

/-- Shorthand for string literals of the model. -/
def lit (s : String) : Str := s.toList

/-- `replace(/\.md$/i, '')`: strip one trailing case-insensitive `.md`. -/
def stripMdExt (p : Str) : Str :=
  if (p.drop (p.length - 3)).map Char.toLower = lit ".md" then p.take (p.length - 3)
  else p

/-- JavaScript `String.prototype.split` with a one-character separator. -/
def splitOnChar (sep : Char) : Str → List Str
  | [] => [[]]
  | c :: rest =>
    if c = sep then [] :: splitOnChar sep rest
    else
      match splitOnChar sep rest with
      | [] => [[c]]
      | l :: ls => (c :: l) :: ls

/-- `replace(/[-_]/g, ' ')` applied characterwise. -/
def dashUnderscoreToSpace (c : Char) : Char :=
  if c = '-' ∨ c = '_' then ' ' else c

/-- `replace(/\b\w/g, (c) => c.toUpperCase())`: uppercase every word character
that sits at a word boundary (start of string or after a non-word
character). -/
def upperBoundariesGo : Option Char → Str → Str
  | _, [] => []
  | prev, c :: rest =>
    let boundary : Bool := match prev with | none => true | some p => !(isWordChar p)
    (if isWordChar c && boundary then c.toUpper else c) :: upperBoundariesGo (some c) rest

/-- Entry point for the word-boundary uppercasing replace. -/
def upperBoundaries (s : Str) : Str := upperBoundariesGo none s

/-- Source `normalizeTitle` (sync-docs-to-notion.ts): trim. -/
def normalizeTitle (s : Str) : Str := jsTrim s

/-- Source `pathToDisplayTitle` (sync-docs-to-notion.ts): strip the extension,
split on `/`; a final segment whose uppercasing is `README` takes its title
from the parent segment when that is present and non-empty (else the literal
`README`); otherwise the final segment is title-cased with dash/underscore
converted to spaces. -/
def pathToDisplayTitle (relativePath : Str) : Str :=
  let withoutExt := stripMdExt relativePath
  let parts := splitOnChar '/' withoutExt
  let lastSeg := parts.getLastD []
  if lastSeg.map Char.toUpper = lit "README" then
    let folder := parts.dropLast.getLastD []
    if folder ≠ [] then upperBoundaries (folder.map dashUnderscoreToSpace)
    else lit "README"
  else upperBoundaries (lastSeg.map dashUnderscoreToSpace)

/-- Return type of `parseRelPath` (`ParsedRelPath` in types.ts). -/
structure ParsedRelPath where
  folderName : Option Str
  folderTitle : Option Str
  docTitle : Str
deriving Repr, DecidableEq

/-- Source `parseRelPath` (sync-docs-to-notion.ts). -/
def parseRelPath (relativePath : Str) : ParsedRelPath :=
  let docTitle := pathToDisplayTitle relativePath
  let parts := splitOnChar '/' (stripMdExt relativePath)
  if parts.length ≤ 1 then ⟨none, none, normalizeTitle docTitle⟩
  else
    let folderName := parts.headD []
    let folderTitle := upperBoundaries (folderName.map dashUnderscoreToSpace)
    ⟨some folderName, some (normalizeTitle folderTitle), normalizeTitle docTitle⟩

/-! ## Block chunking and subpage creation
(src/sync-docs-to-notion.ts, src/notion-helpers.ts) -/

/-- The constant `NOTION_BLOCK_CHUNK_SIZE`. -/
def NOTION_BLOCK_CHUNK_SIZE : Nat := 100

/-- Source `chunkBlocks` (sync-docs-to-notion.ts): successive slices of
`size` blocks. The source loop does not terminate for size 0; it is only ever
invoked with `NOTION_BLOCK_CHUNK_SIZE`, so size 0 is mapped to the empty
list here and never used. -/
def chunkBlocks (blocks : List α) (size : Nat) : List (List α) :=
  if _h : size = 0 ∨ blocks.isEmpty then []
  else blocks.take size :: chunkBlocks (blocks.drop size) size
termination_by blocks.length
decreasing_by
  simp [List.isEmpty_iff] at _h
  rcases blocks with _ | ⟨b, bs⟩
  · simp at _h
  · simp
    omega

/-- One remote call performed by `createSubpage` (notion-helpers.ts). -/
inductive SubpageCall (α : Type) where
  | createPage (parentId : Str) (title : Str) (children : Option (List α))
  | appendChildren (blockId : Str) (children : List α)
deriving Repr, DecidableEq

/-- Source `createSubpage` (notion-helpers.ts) as a call trace: destructure
the chunk list into first and rest, send the first chunk (or none when there
are no chunks) with the page-creation call, then append each remaining chunk
with one append call, in order, to the page id returned by creation
(`newPageId`, assigned by the remote store). -/
def createSubpage (parentPageId title : Str) (blockChunks : List (List α))
    (newPageId : Str) : List (SubpageCall α) :=
  SubpageCall.createPage parentPageId title blockChunks.head? ::
    blockChunks.tail.map (SubpageCall.appendChildren newPageId)

/-! ## Folder page cache (src/notion-helpers.ts) -/

/-- One remote call performed during folder resolution: the child-page
listing lookup of `findFirstChildPageByTitle` or a page creation. -/
inductive FolderCall where
  | lookup (parentId : Str) (title : Str)
  | create (parentId : Str) (title : Str)
deriving Repr, DecidableEq

/-- Source `getOrCreateFolderPage` (notion-helpers.ts). The paginated remote
title search `findFirstChildPageByTitle` is remote I/O, abstracted as the
oracle `lookupChild` (its result for a parent and title); `createId` is the
page id the remote store assigns on creation. Returns the resolved id and
the trace of remote calls. A lookup result that is the empty string is falsy
in the source and falls through to creation. -/
def getOrCreateFolderPage (lookupChild : Str → Str → Option Str)
    (createId : Str → Str → Str) (parentPageId folderTitle : Str) :
    Str × List FolderCall :=
  match lookupChild parentPageId folderTitle with
  | some existingId =>
    if existingId ≠ [] then (existingId, [.lookup parentPageId folderTitle])
    else (createId parentPageId folderTitle,
      [.lookup parentPageId folderTitle, .create parentPageId folderTitle])
  | none => (createId parentPageId folderTitle,
      [.lookup parentPageId folderTitle, .create parentPageId folderTitle])

/-- Source `ensureFolderPagesCache` (notion-helpers.ts): start from a copy of
the initial cache, and for each folder title not already present resolve it
via `getOrCreateFolderPage` and record it. Returns the final cache and the
trace of remote calls. The `Set` of titles is modelled as a list in iteration
order. -/
def ensureFolderPagesCache (lookupChild : Str → Str → Option Str)
    (createId : Str → Str → Str) (rootPageId : Str) (folderTitles : List Str)
    (initialCache : List (Str × Str)) : List (Str × Str) × List FolderCall :=
  folderTitles.foldl
    (fun acc folderTitle =>
      if acc.1.any (fun p => p.1 = folderTitle) then acc
      else
        let r := getOrCreateFolderPage lookupChild createId rootPageId folderTitle
        (recordSet acc.1 folderTitle r.1, acc.2 ++ r.2))
    (initialCache, [])

/-! ## Concurrency runner (src/notion-helpers.ts)

`runWithConcurrency` starts `min(concurrency, taskFns.length)` workers; each
worker repeatedly claims the next unclaimed index and awaits that task,
storing the result at the claimed index. The interleaving of the suspension
points is modelled as a small-step machine: a worker either claims the next
index, or finishes its claimed task (successfully, storing the value, or with
an error, killing that worker and recording the first error, which is what
the surrounding `Promise.all` rejects with). Tasks are modelled as pure
`Except` values indexed by task position. -/

/-- Status of one worker of `runWithConcurrency`. -/
inductive WStatus where
  | idle
  | running (i : Nat)
  | dead
deriving Repr, DecidableEq

/-- Machine state of one `runWithConcurrency` run: the shared `index`
counter, the `results` array (a hole per unfinished task), per-worker
status, and the first task failure if any. -/
structure RunState (ε α : Type) where
  nextIndex : Nat
  results : List (Option α)
  workers : List WStatus
  failed : Option ε
deriving Repr

/-- Initial state of `runWithConcurrency` for `n` tasks and bound `c`:
`new Array(n)` of holes and `min c n` idle workers. -/
def initRunState (ε α : Type) (n c : Nat) : RunState ε α :=
  ⟨0, List.replicate n none, List.replicate (min c n) .idle, none⟩

/-- One interleaving step of the `runWithConcurrency` machine over tasks
`t`. -/
inductive RunStep (t : Nat → Except ε α) (n : Nat) :
    RunState ε α → RunState ε α → Prop where
  | claim (s : RunState ε α) (w : Nat)
      (hw : s.workers[w]? = some .idle) (hn : s.nextIndex < n) :
      RunStep t n s
        ⟨s.nextIndex + 1, s.results, s.workers.set w (.running s.nextIndex), s.failed⟩
  | finishOk (s : RunState ε α) (w i : Nat) (a : α)
      (hw : s.workers[w]? = some (.running i)) (ht : t i = .ok a) :
      RunStep t n s
        ⟨s.nextIndex, s.results.set i (some a), s.workers.set w .idle, s.failed⟩
  | finishErr (s : RunState ε α) (w i : Nat) (e : ε)
      (hw : s.workers[w]? = some (.running i)) (ht : t i = .error e) :
      RunStep t n s
        ⟨s.nextIndex, s.results, s.workers.set w .dead,
          match s.failed with
          | some e0 => some e0
          | none => some e⟩

/-- Reachability of a `runWithConcurrency` machine state. -/
def RunReach (t : Nat → Except ε α) (n c : Nat) (s : RunState ε α) : Prop :=
  Relation.ReflTransGen (RunStep t n) (initRunState ε α n c) s

/-- A run is complete and successful when every worker loop has exited
normally (all idle), the shared counter is exhausted and no task failed. -/
def RunDone (n : Nat) (s : RunState ε α) : Prop :=
  n ≤ s.nextIndex ∧ (∀ w ∈ s.workers, w = WStatus.idle) ∧ s.failed = none

/-- Number of tasks currently in flight (workers awaiting a claimed task). -/
def runningCount (s : RunState ε α) : Nat :=
  (s.workers.filter (fun st => match st with
    | WStatus.running _ => true
    | _ => false)).length

/-- Invariant of the `runWithConcurrency` machine. -/
def RunInv (t : Nat → Except ε α) (n c : Nat) (s : RunState ε α) : Prop :=
  s.results.length = n ∧
  s.workers.length = min c n ∧
  s.nextIndex ≤ n ∧
  (∀ (i : Nat) (a : α), s.results[i]? = some (some a) → t i = .ok a) ∧
  (∀ e, s.failed = some e → ∃ i, i < n ∧ t i = .error e) ∧
  (∀ i : Nat, i < s.nextIndex →
    (∃ w : Nat, s.workers[w]? = some (WStatus.running i)) ∨
    (∃ a, s.results[i]? = some (some a)) ∨
    (s.failed.isSome = true ∧ ∃ e, t i = .error e)) ∧
  (∀ w i : Nat, s.workers[w]? = some (WStatus.running i) → i < s.nextIndex)

/-! ## Content adapter (src/markdown-to-blocks.ts)

Converted blocks are dynamically shaped JavaScript values; they are modelled
as JSON-like trees. The third-party converter `markdownToBlocks` is an
external collaborator and appears as an oracle returning either a thrown
error, a non-array value, or an array of blocks. -/

/-- JSON-like JavaScript values (block objects, rich-text items, and their
fields). -/
inductive JVal where
  | null
  | bool (b : Bool)
  | num (n : Int)
  | str (s : Str)
  | arr (elems : List JVal)
  | obj (fields : List (Str × JVal))
deriving Repr

/-- JavaScript property read `v[k]`: a field of an object, `undefined`
(`none`) otherwise. -/
def jget : JVal → Str → Option JVal
  | .obj fields, k => (fields.find? (fun p => p.1 = k)).map Prod.snd
  | _, _ => none

/-- JavaScript truthiness of a possibly-undefined value. -/
def jtruthy : Option JVal → Bool
  | none => false
  | some .null => false
  | some (.bool b) => b
  | some (.num n) => !(n = 0 : Bool)
  | some (.str s) => !(s = [] : Bool)
  | some (.arr _) => true
  | some (.obj _) => true

/-- Source `isValidNotionUrl` (markdown-to-blocks.ts): a string whose trim
starts with `http://` or `https://`. -/
def isValidNotionUrl : Option JVal → Bool
  | some (.str u) =>
    (lit "http://").isPrefixOf (jsTrim u) || (lit "https://").isPrefixOf (jsTrim u)
  | _ => false

/-- The body of the map in source `sanitizeRichText` (markdown-to-blocks.ts):
an item of type `text` with a truthy `text` field is rebuilt with only its
type, its content (defaulting to the empty string for a null or missing
content) and, when the link url is truthy and scheme-valid, a link object
with only that url; any other item is returned unchanged. -/
def sanitizeItem (item : JVal) : JVal :=
  match jget item (lit "type"), jget item (lit "text") with
  | some (.str ty), some tv =>
    if ty = lit "text" ∧ jtruthy (some tv) then
      let contentOut : JVal :=
        match jget tv (lit "content") with
        | none => .str []
        | some .null => .str []
        | some v => v
      let linkUrl : Option JVal :=
        match jget tv (lit "link") with
        | none => none
        | some .null => none
        | some lv => jget lv (lit "url")
      let textFields : List (Str × JVal) :=
        if jtruthy linkUrl && isValidNotionUrl linkUrl then
          [(lit "content", contentOut), (lit "link", .obj [(lit "url", linkUrl.getD .null)])]
        else [(lit "content", contentOut)]
      .obj [(lit "type", .str (lit "text")), (lit "text", .obj textFields)]
    else item
  | _, _ => item

/-- Source `sanitizeRichText` (markdown-to-blocks.ts): map `sanitizeItem`
over the rich-text array. -/
def sanitizeRichText (richText : List JVal) : List JVal :=
  richText.map sanitizeItem

/-- JavaScript object update `{ ...v, k: x }` on an object `v` that may or
may not already have field `k` (overwrite in place, else append). -/
def objSet (v : JVal) (k : Str) (x : JVal) : JVal :=
  match v with
  | .obj fields =>
    .obj
      (if fields.any (fun p => p.1 = k) then
        fields.map (fun p => if p.1 = k then (k, x) else p)
      else fields ++ [(k, x)])
  | other => other

/-- `typeof v === 'object'` (arrays and null are of type object in
JavaScript; the null case is filtered before this test in the source). -/
def isObjectTyped : JVal → Bool
  | .obj _ => true
  | .arr _ => true
  | .null => true
  | _ => false

/-- Field values of an object are structurally smaller (used for the
termination of the sanitizer's recursion into nested children). -/
theorem jget_sizeOf {v : JVal} {k : Str} {u : JVal} (h : jget v k = some u) :
    sizeOf u < sizeOf v := by
  cases v with
  | null => simp [jget] at h
  | bool b => simp [jget] at h
  | num n => simp [jget] at h
  | str s => simp [jget] at h
  | arr es => simp [jget] at h
  | obj fields =>
    simp only [jget] at h
    rcases hf : List.find? (fun p => decide (p.1 = k)) fields with _ | p
    · rw [hf] at h
      simp at h
    · rw [hf] at h
      simp at h
      subst h
      have hmem : p ∈ fields := List.mem_of_find?_eq_some hf
      have h1 : sizeOf p < sizeOf fields := List.sizeOf_lt_of_mem hmem
      have h2 : sizeOf p.2 < sizeOf p := by
        obtain ⟨a, b⟩ := p
        simp
        try omega
      simp only [JVal.obj.sizeOf_spec]
      omega

mutual

/-- Source `sanitizeBlocks` (markdown-to-blocks.ts): copy each block and
rewrite each of its fields via the per-field sanitation; non-object blocks
have no own fields to process. -/
def sanitizeBlocks : List JVal → List JVal
  | [] => []
  | .obj fields :: rest => .obj (sanitizeFields fields) :: sanitizeBlocks rest
  | b :: rest => b :: sanitizeBlocks rest
termination_by l => sizeOf l
decreasing_by
  all_goals simp
  all_goals omega

/-- The `for (const key of Object.keys(b))` loop of `sanitizeBlocks`: each
field is processed once, in order, independently of the others. -/
def sanitizeFields : List (Str × JVal) → List (Str × JVal)
  | [] => []
  | (k, v) :: rest => (k, sanitizeField k v) :: sanitizeFields rest
termination_by f => sizeOf f
decreasing_by
  all_goals simp
  all_goals omega

/-- The loop body of `sanitizeBlocks` for one field: the `type` field, null
values and non-object values are skipped; otherwise a `rich_text` array field
of the property is replaced by its sanitized form, and a `children` array
field (read from the original property) is replaced by the recursively
sanitized blocks. -/
def sanitizeField (k : Str) (v : JVal) : JVal :=
  if k = lit "type" then v
  else
    match v with
    | .null => .null
    | JVal.bool b => JVal.bool b
    | .num n => .num n
    | .str s => .str s
    | w =>
      let v1 :=
        match jget w (lit "rich_text") with
        | some (.arr items) => objSet w (lit "rich_text") (.arr (sanitizeRichText items))
        | _ => w
      match h : jget w (lit "children") with
      | some (.arr cs) => objSet v1 (lit "children") (.arr (sanitizeBlocks cs))
      | _ => v1
termination_by sizeOf v
decreasing_by
  have := jget_sizeOf h
  simp at this
  omega

end

/-- Source `FALLBACK_BLOCK` (markdown-to-blocks.ts). -/
def FALLBACK_BLOCK : JVal :=
  .obj [(lit "type", .str (lit "paragraph")),
    (lit "paragraph", .obj [(lit "rich_text",
      .arr [.obj [(lit "type", .str (lit "text")),
        (lit "text", .obj [(lit "content", .str (lit "(No content)"))])]])])]

/-- Source `ensureBlocksArray` (markdown-to-blocks.ts): a non-array (`none`)
or empty conversion result is replaced by the single fallback block. -/
def ensureBlocksArray : Option (List JVal) → List JVal
  | none => [FALLBACK_BLOCK]
  | some [] => [FALLBACK_BLOCK]
  | some bs => bs

/-- The catch-branch block of `convertMarkdownToNotionBlocks`: one paragraph
carrying the first 2000 characters of the raw content, or `(empty)` when the
content is empty. -/
def conversionFailureBlock (content : Str) : JVal :=
  .obj [(lit "type", .str (lit "paragraph")),
    (lit "paragraph", .obj [(lit "rich_text",
      .arr [.obj [(lit "type", .str (lit "text")),
        (lit "text", .obj [(lit "content",
          .str (if content.take 2000 = [] then lit "(empty)" else content.take 2000))])]])])]

/-- Source `convertMarkdownToNotionBlocks` (markdown-to-blocks.ts). The
third-party converter `markdownToBlocks` is the oracle `md2b`: it either
throws (`Except.error`), returns a non-array value (`Except.ok none`), or
returns an array of blocks (`Except.ok (some bs)`). The thrown case is
recovered into the bounded-excerpt fallback block; the result is then
array-ensured and sanitized. -/
def convertMarkdownToNotionBlocks (md2b : Str → Except Unit (Option (List JVal)))
    (markdownContent : Str) : List JVal :=
  match md2b markdownContent with
  | .ok blocks => sanitizeBlocks (ensureBlocksArray blocks)
  | .error _ =>
    sanitizeBlocks (ensureBlocksArray (some [conversionFailureBlock markdownContent]))

/-! ## Change selector (src/sync-changed-docs.ts) -/

/-- JavaScript `String.prototype.endsWith`. -/
def jsEndsWith (suffix s : Str) : Bool :=
  s.drop (s.length - suffix.length) = suffix

/-- `[...new Set(xs)]`: deduplicate keeping first occurrences in order. -/
def dedupFirst (l : List Str) : List Str :=
  l.foldl (fun acc x => if x ∈ acc then acc else acc ++ [x]) []

/-- Source `getChangedMdPaths` (sync-changed-docs.ts). The `git diff
--name-only` subprocess is the oracle `execDiff`: its stdout on success, or
its exit status on failure. The function normalises the docs prefix to a
trailing slash, splits the output into trimmed non-empty lines, keeps lines
that (after backslash normalisation) end case-insensitively in `.md`, are not
the prefix itself (with or without its trailing slash) and start with the
prefix, strips the prefix, and deduplicates. A failure with exit status 128
yields the null sentinel (`Except.ok none`); any other failure is
rethrown. -/
def getChangedMdPaths (execDiff : Except Nat Str) (docsPfx : Str) :
    Except Nat (Option (List Str)) :=
  let pfx := if docsPfx.getLast? = some '/' then docsPfx else docsPfx ++ ['/']
  match execDiff with
  | .ok out =>
    let lines := ((splitLines out).map jsTrim).filter (fun s => s ≠ [])
    let relPaths := lines.foldl
      (fun acc line =>
        let normalized := line.map (fun c => if c = '\\' then '/' else c)
        if ¬ jsEndsWith (lit ".md") (normalized.map Char.toLower) then acc
        else if normalized = pfx ∨ normalized = pfx.dropLast then acc
        else if pfx.isPrefixOf normalized then acc ++ [normalized.drop pfx.length]
        else acc)
      []
    .ok (some (dedupFirst relPaths))
  | .error status => if status = 128 then .ok none else .error status

/-! ## Working-set selection (src/sync-docs-to-notion.ts and the action
entry point)

The docs directory is modelled as the listing `fs` of all `.md` files under
it: pairs of a relative path and the file's raw content, with distinct
paths. `collectMdFiles` walks the directory, filters on the `.md` extension
and sorts; on the model it sorts the listed paths (JavaScript default sort:
lexicographic by code unit). -/

/-- JavaScript default string comparison: lexicographic by code unit. -/
def strLtB : Str → Str → Bool
  | [], [] => false
  | [], _ :: _ => true
  | _ :: _, [] => false
  | a :: as, b :: bs =>
    if a.val < b.val then true else if b.val < a.val then false else strLtB as bs

/-- Insertion step of the sort in `collectMdFiles`. -/
def insertSortedStr (x : Str) : List Str → List Str
  | [] => [x]
  | y :: ys => if strLtB x y then x :: y :: ys else y :: insertSortedStr x ys

/-- Sorting of the collected file list (`files.sort()`), as insertion sort. -/
def sortStrs (l : List Str) : List Str := l.foldr insertSortedStr []

/-- Source `collectMdFiles` (sync-docs-to-notion.ts) on the modelled
listing: the sorted relative paths. -/
def collectMdFiles (fs : List (Str × Str)) : List Str :=
  sortStrs (fs.map Prod.fst)

/-- `Set.prototype.add`: append if absent (insertion-ordered set). -/
def setAdd (s : List Str) (x : Str) : List Str :=
  if x ∈ s then s else s ++ [x]

/-- The emptiness test of `addDocsWithoutPageId`: the decoded identifier is
absent or empty after trimming. -/
def parseHasNoId (raw : Str) : Bool :=
  match (parseMdWithNotionId raw).notionPageId with
  | some s => jsTrim s = []
  | none => true

/-- Source `addDocsWithoutPageId` (sync-docs-to-notion.ts): for every `.md`
file under the root whose frontmatter identifier is absent or empty after
trimming, add its relative path to the set. -/
def addDocsWithoutPageId (fs : List (Str × Str)) (relPathsSet : List Str) :
    List Str :=
  (collectMdFiles fs).foldl
    (fun acc relPath =>
      match recordGet fs relPath with
      | some raw => if parseHasNoId raw then setAdd acc relPath else acc
      | none => acc)
    relPathsSet

/-- The working set computed by `runSync` (sync-docs-to-notion.ts, the
`mdFiles` selection): with an explicit path list, its set union with the
documents lacking an identifier, sorted; otherwise every collected file. -/
def runSyncWorkingSet (fs : List (Str × Str)) (optionalRelPaths : Option (List Str)) :
    List Str :=
  match optionalRelPaths with
  | some l => sortStrs (addDocsWithoutPageId fs (l.foldl setAdd []))
  | none => collectMdFiles fs

/-- The sync-mode input of the action. -/
inductive SyncMode where
  | changed
  | all
deriving Repr, DecidableEq

/-- The working-set selection of the action entry point (`run`): in `all`
mode, or in `changed` mode with a missing ref or an unavailable diff
(`none`), every document is synced; in `changed` mode with an explicit empty
diff list the run returns early and syncs nothing; with an explicit non-empty
diff list the engine is invoked with that list. `diffResult` is the value
returned by `getChangedMdPaths`. -/
def selectWorkingSet (fs : List (Str × Str)) (syncMode : SyncMode)
    (gitBefore gitAfter : Str) (diffResult : Option (List Str)) : List Str :=
  match syncMode with
  | .all => runSyncWorkingSet fs none
  | .changed =>
    if gitBefore = [] ∨ gitAfter = [] then runSyncWorkingSet fs none
    else
      match diffResult with
      | none => runSyncWorkingSet fs none
      | some [] => []
      | some l => runSyncWorkingSet fs (some l)

/-! ## Per-document sync decision (src/sync-docs-to-notion.ts) -/

/-- Source `resolveNotionParentId`: the folder cache entry, else the root. -/
def resolveNotionParentId (rootPageId : Str) (folderTitle : Option Str)
    (folderPageCache : List (Str × Str)) : Str :=
  match folderTitle with
  | none => rootPageId
  | some t => (recordGet folderPageCache t).getD rootPageId

/-- Source `resolveExistingDocPageId`: trim the decoded identifier; an empty
identifier resolves to nothing; a validated identifier is accepted without a
remote call; otherwise the remote existence check (`notionRetrievePageIfExists`,
abstracted as the oracle `remoteHas`) decides — found adds it to the
validated set and accepts, not-found resolves to nothing. Returns the
resolution and the updated validated set. -/
def resolveExistingDocPageId (remoteHas : Str → Bool) (validatedPageIds : List Str)
    (idFromFrontmatter : Option Str) : Option Str × List Str :=
  let id := match idFromFrontmatter with | some s => jsTrim s | none => []
  if id = [] then (none, validatedPageIds)
  else if id ∈ validatedPageIds then (some id, validatedPageIds)
  else if remoteHas id then (some id, validatedPageIds ++ [id])
  else (none, validatedPageIds)

/-- The action recorded in a `SyncResult`. -/
inductive DocAction where
  | created
  | updated
deriving Repr, DecidableEq

/-- Source `SyncResult` (types.ts). -/
structure SyncResult where
  action : DocAction
  title : Str
  relPath : Str
  parent : Str
deriving Repr, DecidableEq

/-- One effect performed by `syncOneDoc`: trashing the old remote page,
creating the new page (via `createSubpage`, whose own call breakdown is
`createSubpage` above) or rewriting the source file. -/
inductive DocCall where
  | trash (pageId : Str)
  | createPage (parentId : Str) (title : Str) (chunks : List (List JVal))
  | writeFile (path : Str) (content : Str)

/-- Source `syncOneDoc` (sync-docs-to-notion.ts): parse the raw content and
the relative path, convert and chunk the body, resolve the parent page, then
resolve the existing page id; when one resolves, trash it and recreate
(action `updated`), else create directly (action `created`); in both cases
persist the new page id (assigned by the remote store, `newPageId`) back into
the file. Returns the result record, the effect trace and the updated
validated set. -/
def syncOneDoc (md2b : Str → Except Unit (Option (List JVal)))
    (remoteHas : Str → Bool) (newPageId rootPageId : Str)
    (folderPageCache : List (Str × Str)) (validatedPageIds : List Str)
    (relPath rawContent : Str) : SyncResult × List DocCall × List Str :=
  let pf := parseMdWithNotionId rawContent
  let pr := parseRelPath relPath
  let blocks := convertMarkdownToNotionBlocks md2b pf.body
  let blockChunks := chunkBlocks blocks NOTION_BLOCK_CHUNK_SIZE
  let parentPageId := resolveNotionParentId rootPageId pr.folderTitle folderPageCache
  let res := resolveExistingDocPageId remoteHas validatedPageIds pf.notionPageId
  match res.1 with
  | some existingPageId =>
    (⟨.updated, pr.docTitle, relPath, pr.folderTitle.getD (lit "(root)")⟩,
      [.trash existingPageId, .createPage parentPageId pr.docTitle blockChunks,
        .writeFile relPath (stringifyMdWithNotionId pf.body pf.data newPageId)],
      res.2)
  | none =>
    (⟨.created, pr.docTitle, relPath, pr.folderTitle.getD (lit "(root)")⟩,
      [.createPage parentPageId pr.docTitle blockChunks,
        .writeFile relPath (stringifyMdWithNotionId pf.body pf.data newPageId)],
      res.2)

/-! ## Spec-side characterisations

Definitions below render claims of the specification in the specification's
own words, for comparison against the source embedding. -/

/-- The title-derivation rule exactly as the specification's classifier claim
states it, including its fallback "the segment itself" for a root-level
readme file. -/
def claimDocTitleStated (p : Str) : Str :=
  let parts := splitOnChar '/' (stripMdExt p)
  let lastSeg := parts.getLastD []
  let parent := parts.dropLast.getLastD []
  if lastSeg.map Char.toUpper = lit "README" then
    if parent = [] then lastSeg
    else jsTrim (upperBoundaries (parent.map dashUnderscoreToSpace))
  else jsTrim (upperBoundaries (lastSeg.map dashUnderscoreToSpace))

/-- The title-derivation rule amended to what the source does at the root: a
readme segment with no (non-empty) parent segment falls back to the constant
`README`, not to the segment's own spelling. -/
def claimDocTitleAmended (p : Str) : Str :=
  let parts := splitOnChar '/' (stripMdExt p)
  let lastSeg := parts.getLastD []
  let parent := parts.dropLast.getLastD []
  if lastSeg.map Char.toUpper = lit "README" then
    if parent = [] then lit "README"
    else jsTrim (upperBoundaries (parent.map dashUnderscoreToSpace))
  else jsTrim (upperBoundaries (lastSeg.map dashUnderscoreToSpace))

/-- The folder-title rule as the classifier claim states it: the title-cased
first path segment for nested paths, absent for root-level documents. -/
def claimFolderTitleStated (p : Str) : Option Str :=
  let parts := splitOnChar '/' (stripMdExt p)
  if parts.length ≤ 1 then none
  else some (jsTrim (upperBoundaries ((parts.headD []).map dashUnderscoreToSpace)))

/-- The change-selector claim's characterisation of a successful diff: the
deduplicated, prefix-stripped trimmed non-empty diff lines that end
case-insensitively in `.md`, are not the prefix itself and start with the
prefix. -/
def claimChangedPaths (out : Str) (pfx : Str) : List Str :=
  let lines := ((splitLines out).map jsTrim).filter (fun s => s ≠ [])
  dedupFirst
    (((lines.map (fun l => l.map (fun c => if c = '\\' then '/' else c))).filter
        (fun n => jsEndsWith (lit ".md") (n.map Char.toLower) ∧
          ¬(n = pfx ∨ n = pfx.dropLast) ∧ pfx.isPrefixOf n)).map
      (fun n => n.drop pfx.length))

/-- The payloads of the append calls of a `createSubpage` trace, in order. -/
def appendPayloads (calls : List (SubpageCall α)) : List (List α) :=
  calls.foldr (fun c acc => match c with | .appendChildren _ ch => ch :: acc | _ => acc) []

/-- The sanitation claim's per-item link condition: a rich-text item of type
`text` with a truthy text object either has no link on its text object, or a
link whose url is a scheme-valid string. Other items are unconstrained. -/
def itemLinkOk (item : JVal) : Bool :=
  match jget item (lit "type"), jget item (lit "text") with
  | some (.str ty), some tv =>
    if ty = lit "text" ∧ jtruthy (some tv) then
      match jget tv (lit "link") with
      | none => true
      | some l =>
        match jget l (lit "url") with
        | some u => isValidNotionUrl (some u)
        | none => false
    else true
  | _, _ => true

mutual

/-- The sanitation claim's link condition over a block list: in every block
object's properties (the positions the sanitizer rewrites — the direct
`rich_text` arrays of non-`type` fields, and recursively the `children`
arrays), every rich-text item satisfies `itemLinkOk`. -/
def blocksLinkOk : List JVal → Bool
  | [] => true
  | .obj fields :: rest => fieldsLinkOk fields && blocksLinkOk rest
  | _ :: rest => blocksLinkOk rest
termination_by l => sizeOf l
decreasing_by
  all_goals simp
  all_goals omega

/-- Field-list part of `blocksLinkOk`. -/
def fieldsLinkOk : List (Str × JVal) → Bool
  | [] => true
  | (k, v) :: rest => fieldLinkOk k v && fieldsLinkOk rest
termination_by f => sizeOf f
decreasing_by
  all_goals simp
  all_goals omega

/-- Per-field part of `blocksLinkOk`, skipping the `type` field like the
sanitizer does. -/
def fieldLinkOk (k : Str) (v : JVal) : Bool :=
  if k = lit "type" then true
  else
    (match jget v (lit "rich_text") with
      | some (.arr items) => items.all itemLinkOk
      | _ => true) &&
    (match h : jget v (lit "children") with
      | some (.arr cs) => blocksLinkOk cs
      | _ => true)
termination_by sizeOf v
decreasing_by
  have := jget_sizeOf h
  simp at this
  omega

end

/-! # Theorems -/

/-! ## Path classification (claim C6) -/

/-- The document title of `parseRelPath` is the normalised display title,
independently of the folder branch. -/
theorem parseRelPath_docTitle (p : Str) :
    (parseRelPath p).docTitle = normalizeTitle (pathToDisplayTitle p) := by
  simp only [parseRelPath]
  split <;> rfl

/-- The display title matches the amended classifier rule. -/
theorem pathToDisplayTitle_claim (p : Str) :
    normalizeTitle (pathToDisplayTitle p) = claimDocTitleAmended p := by
  simp only [pathToDisplayTitle, claimDocTitleAmended, normalizeTitle]
  by_cases h1 : ((splitOnChar '/' (stripMdExt p)).getLastD []).map Char.toUpper = lit "README"
  · rw [if_pos h1, if_pos h1]
    by_cases h2 : (splitOnChar '/' (stripMdExt p)).dropLast.getLastD [] = []
    · rw [if_neg (not_not_intro h2), if_pos h2]
      decide
    · rw [if_pos h2, if_neg h2]
  · rw [if_neg h1, if_neg h1]

/-- The folder title of `parseRelPath` matches the classifier claim. -/
theorem parseRelPath_folderTitle (p : Str) :
    (parseRelPath p).folderTitle = claimFolderTitleStated p := by
  simp only [parseRelPath, claimFolderTitleStated, normalizeTitle]
  by_cases h : (splitOnChar '/' (stripMdExt p)).length ≤ 1
  · rw [if_pos h, if_pos h]
  · rw [if_neg h, if_neg h]

/-- Claim C6 (amended): the three stated examples hold, and in general the
document title follows the readme rule with the root-level fallback being the
constant `README` (not the segment's own spelling), while the folder title is
the title-cased first path segment for nested paths and absent for root-level
documents. -/
theorem C6_path_classification :
    parseRelPath (lit "guides/setup.md") =
      ⟨some (lit "guides"), some (lit "Guides"), lit "Setup"⟩ ∧
    parseRelPath (lit "guides/README.md") =
      ⟨some (lit "guides"), some (lit "Guides"), lit "Guides"⟩ ∧
    parseRelPath (lit "intro.md") = ⟨none, none, lit "Intro"⟩ ∧
    (∀ p, (parseRelPath p).docTitle = claimDocTitleAmended p) ∧
    (∀ p, (parseRelPath p).folderTitle = claimFolderTitleStated p) :=
  ⟨by decide, by decide, by decide,
    fun p => (parseRelPath_docTitle p).trans (pathToDisplayTitle_claim p),
    fun p => parseRelPath_folderTitle p⟩

/-- Claim C6 counterexample: for the root-level path `readme.md` the source
yields the constant `README`, not the segment itself as the stated rule's
fallback would. -/
theorem C6_counterexample :
    (parseRelPath (lit "readme.md")).docTitle ≠ claimDocTitleStated (lit "readme.md") ∧
    (parseRelPath (lit "readme.md")).docTitle = lit "README" ∧
    claimDocTitleStated (lit "readme.md") = lit "readme" := by decide

/-! ## Working-set selection (claim C1) -/

/-- Claim C1 fails on the code: in `changed` mode with both refs present and
an explicit empty diff list, the entry point returns early and syncs nothing,
although the docs tree contains `intro.md` with no frontmatter identifier —
a document the engine's working-set computation (which the entry point skips
in this case) would have included. -/
theorem C1_empty_diff_skips_first_sync :
    selectWorkingSet [(lit "intro.md", lit "hello")] .changed
        (lit "base") (lit "head") (some []) = [] ∧
    parseHasNoId (lit "hello") = true ∧
    runSyncWorkingSet [(lit "intro.md", lit "hello")] (some []) = [lit "intro.md"] := by
  decide

/-! ## Chunking and subpage creation (claim C7) -/

/-- Chunking the empty list yields no chunks. -/
theorem chunkBlocks_nil {β : Type} (size : Nat) :
    chunkBlocks ([] : List β) size = [] := by
  rw [chunkBlocks]
  simp

/-- Unfolding of `chunkBlocks` on a non-empty list and non-zero size. -/
theorem chunkBlocks_cons {β : Type} (blocks : List β) (size : Nat) (hs : size ≠ 0)
    (hb : blocks ≠ []) :
    chunkBlocks blocks size = blocks.take size :: chunkBlocks (blocks.drop size) size := by
  rw [chunkBlocks]
  rw [dif_neg]
  simp [hs, List.isEmpty_iff, hb]

/-- The in-order concatenation of the chunks is the original list. -/
theorem chunkBlocks_flatten {β : Type} (blocks : List β) (size : Nat) (hs : size ≠ 0) :
    (chunkBlocks blocks size).flatten = blocks := by
  induction blocks, size using chunkBlocks.induct with
  | case1 blocks size h =>
    have hb : blocks = [] := by
      rcases h with h | h
      · exact absurd h hs
      · simpa [List.isEmpty_iff] using h
    subst hb
    simp [chunkBlocks_nil]
  | case2 blocks size h ih =>
    have hb : blocks ≠ [] := by
      intro he
      exact h (Or.inr (by simp [he]))
    rw [chunkBlocks_cons blocks size hs hb]
    simp only [List.flatten_cons]
    rw [ih hs]
    exact List.take_append_drop size blocks

/-- No chunk is empty. -/
theorem chunkBlocks_mem_ne_nil {β : Type} (blocks : List β) (size : Nat) (hs : size ≠ 0) :
    ∀ c ∈ chunkBlocks blocks size, c ≠ [] := by
  induction blocks, size using chunkBlocks.induct with
  | case1 blocks size h =>
    have hb : blocks = [] := by
      rcases h with h | h
      · exact absurd h hs
      · simpa [List.isEmpty_iff] using h
    subst hb
    simp [chunkBlocks_nil]
  | case2 blocks size h ih =>
    have hb : blocks ≠ [] := by
      intro he
      exact h (Or.inr (by simp [he]))
    rw [chunkBlocks_cons blocks size hs hb]
    intro c hc
    rcases List.mem_cons.mp hc with rfl | hc
    · simp only [ne_eq, List.take_eq_nil_iff]
      push_neg
      exact ⟨hs, hb⟩
    · exact ih hs c hc

/-- Chunking yields no chunks only for the empty list (at non-zero size). -/
theorem chunkBlocks_eq_nil_iff {β : Type} (blocks : List β) (size : Nat) (hs : size ≠ 0) :
    chunkBlocks blocks size = [] ↔ blocks = [] := by
  constructor
  · intro he
    by_contra hb
    rw [chunkBlocks_cons blocks size hs hb] at he
    exact List.cons_ne_nil _ _ he
  · intro hb
    subst hb
    exact chunkBlocks_nil size

/-- Every chunk except possibly the last has exactly `size` blocks. -/
theorem chunkBlocks_full {β : Type} (blocks : List β) (size : Nat) (hs : size ≠ 0) :
    ∀ i, i + 1 < (chunkBlocks blocks size).length →
      ((chunkBlocks blocks size).getD i []).length = size := by
  induction blocks, size using chunkBlocks.induct with
  | case1 blocks size h =>
    have hb : blocks = [] := by
      rcases h with h | h
      · exact absurd h hs
      · simpa [List.isEmpty_iff] using h
    subst hb
    simp [chunkBlocks_nil]
  | case2 blocks size h ih =>
    have hb : blocks ≠ [] := by
      intro he
      exact h (Or.inr (by simp [he]))
    rw [chunkBlocks_cons blocks size hs hb]
    intro i hi
    cases i with
    | zero =>
      simp only [List.getD_cons_zero, List.length_take]
      simp only [List.length_cons, Nat.lt_add_one_iff] at hi
      have hrest : chunkBlocks (blocks.drop size) size ≠ [] := by
        intro he
        rw [he] at hi
        simp at hi
      have hdrop : blocks.drop size ≠ [] :=
        fun he => hrest (by rw [he]; exact chunkBlocks_nil size)
      have : size < blocks.length := by
        by_contra hlen
        push_neg at hlen
        exact hdrop (List.drop_eq_nil_of_le hlen)
      omega
    | succ j =>
      simp only [List.getD_cons_succ]
      exact ih hs j (by simpa using hi)

/-- Claim C7: chunking at the fixed chunk size 100 concatenates back to the
original block list, every chunk except possibly the last holds exactly 100
blocks, no chunk is empty, and the `createSubpage` trace sends the first
chunk with the page-creation call and the remaining chunks as one append
call per chunk, in original order, so that the created page receives exactly
the original blocks in order. -/
theorem C7_chunking_and_subpage_calls {β : Type} (blocks : List β)
    (parentId title newPageId : Str) :
    (chunkBlocks blocks NOTION_BLOCK_CHUNK_SIZE).flatten = blocks ∧
    (∀ i, i + 1 < (chunkBlocks blocks NOTION_BLOCK_CHUNK_SIZE).length →
      ((chunkBlocks blocks NOTION_BLOCK_CHUNK_SIZE).getD i []).length = 100) ∧
    (∀ c ∈ chunkBlocks blocks NOTION_BLOCK_CHUNK_SIZE, c ≠ []) ∧
    (createSubpage parentId title (chunkBlocks blocks NOTION_BLOCK_CHUNK_SIZE) newPageId).head? =
      some (.createPage parentId title (chunkBlocks blocks NOTION_BLOCK_CHUNK_SIZE).head?) ∧
    appendPayloads (createSubpage parentId title (chunkBlocks blocks NOTION_BLOCK_CHUNK_SIZE) newPageId) =
      (chunkBlocks blocks NOTION_BLOCK_CHUNK_SIZE).tail ∧
    (chunkBlocks blocks NOTION_BLOCK_CHUNK_SIZE).head?.getD [] ++
      (appendPayloads (createSubpage parentId title (chunkBlocks blocks NOTION_BLOCK_CHUNK_SIZE) newPageId)).flatten =
      blocks := by
  have hs : NOTION_BLOCK_CHUNK_SIZE ≠ 0 := by decide
  have happ : ∀ (calls : List (List β)),
      appendPayloads (calls.map (SubpageCall.appendChildren newPageId)) = calls := by
    intro calls
    induction calls with
    | nil => rfl
    | cons c cs ih => simp [appendPayloads] at ih ⊢; exact ih
  have htrace : appendPayloads (createSubpage parentId title
      (chunkBlocks blocks NOTION_BLOCK_CHUNK_SIZE) newPageId) =
      (chunkBlocks blocks NOTION_BLOCK_CHUNK_SIZE).tail := by
    simp only [createSubpage, appendPayloads, List.foldr_cons]
    exact happ _
  refine ⟨chunkBlocks_flatten blocks _ hs, ?_, chunkBlocks_mem_ne_nil blocks _ hs, rfl, htrace, ?_⟩
  · intro i hi
    exact chunkBlocks_full blocks _ hs i hi
  · rw [htrace]
    have hflat := chunkBlocks_flatten blocks _ hs
    rcases hchunks : chunkBlocks blocks NOTION_BLOCK_CHUNK_SIZE with _ | ⟨c, cs⟩
    · rw [hchunks] at hflat
      simpa using hflat.symm
    · rw [hchunks] at hflat
      simpa using hflat

/-- Witness for claim C7: a 101-block list yields a first chunk of exactly
100 blocks. -/
theorem C7_witness :
    ((chunkBlocks (List.replicate 101 (0 : Nat)) NOTION_BLOCK_CHUNK_SIZE).getD 0 []).length = 100 := by
  have hc : chunkBlocks (List.replicate 101 (0 : Nat)) NOTION_BLOCK_CHUNK_SIZE =
      [List.replicate 100 0, List.replicate 1 0] := by
    rw [chunkBlocks_cons _ _ (by decide) (by simp)]
    rw [show List.drop NOTION_BLOCK_CHUNK_SIZE (List.replicate 101 (0 : Nat)) =
        List.replicate 1 0 by simp [NOTION_BLOCK_CHUNK_SIZE]]
    rw [chunkBlocks_cons _ _ (by decide) (by simp)]
    rw [show List.drop NOTION_BLOCK_CHUNK_SIZE (List.replicate 1 (0 : Nat)) = [] by
      simp [NOTION_BLOCK_CHUNK_SIZE]]
    rw [chunkBlocks_nil]
    simp [NOTION_BLOCK_CHUNK_SIZE]
  exact (C7_chunking_and_subpage_calls (List.replicate 101 (0 : Nat)) [] [] []).2.1 0
    (by rw [hc]; simp)

/-! ## Change selector (claim C8) -/

/-- A fold that conditionally pushes a transformed element is the filter-map
of the list. -/
theorem foldl_push_filter_map {κ : Type} (P : Str → Prop) [DecidablePred P]
    (f : Str → κ) (l : List Str) : ∀ (acc : List κ),
    l.foldl (fun acc x => if P x then acc ++ [f x] else acc) acc =
      acc ++ (l.filter (fun x => decide (P x))).map f := by
  induction l with
  | nil => intro acc; simp
  | cons x xs ih =>
    intro acc
    simp only [List.foldl_cons, List.filter_cons]
    by_cases hx : P x
    · rw [if_pos hx, ih]
      simp [hx]
    · rw [if_neg hx, ih]
      simp [hx]

/-- Two pointwise-equal fold functions fold equally. -/
theorem foldl_fn_congr {β κ : Type} (f g : β → κ → β) (h : ∀ b x, f b x = g b x)
    (l : List κ) : ∀ b, l.foldl f b = l.foldl g b := by
  induction l with
  | nil => intro b; rfl
  | cons x xs ih =>
    intro b
    simp only [List.foldl_cons]
    rw [h b x]
    exact ih _

/-- The filtering loop of `getChangedMdPaths` equals the claim's filter-map
characterisation. -/
theorem changed_fold_eq (pfx : Str) (lines : List Str) :
    lines.foldl
      (fun acc line =>
        let normalized := line.map (fun c => if c = '\\' then '/' else c)
        if ¬ jsEndsWith (lit ".md") (normalized.map Char.toLower) then acc
        else if normalized = pfx ∨ normalized = pfx.dropLast then acc
        else if pfx.isPrefixOf normalized then acc ++ [normalized.drop pfx.length]
        else acc)
      [] =
    (((lines.map (fun l => l.map (fun c => if c = '\\' then '/' else c))).filter
        (fun n => jsEndsWith (lit ".md") (n.map Char.toLower) ∧
          ¬(n = pfx ∨ n = pfx.dropLast) ∧ pfx.isPrefixOf n)).map
      (fun n => n.drop pfx.length)) := by
  have h1 : (lines.map (fun l => l.map (fun c => if c = '\\' then '/' else c))).foldl
      (fun acc n =>
        if ¬ jsEndsWith (lit ".md") (n.map Char.toLower) then acc
        else if n = pfx ∨ n = pfx.dropLast then acc
        else if pfx.isPrefixOf n then acc ++ [n.drop pfx.length]
        else acc)
      [] =
      lines.foldl
        (fun acc line =>
          let normalized := line.map (fun c => if c = '\\' then '/' else c)
          if ¬ jsEndsWith (lit ".md") (normalized.map Char.toLower) then acc
          else if normalized = pfx ∨ normalized = pfx.dropLast then acc
          else if pfx.isPrefixOf normalized then acc ++ [normalized.drop pfx.length]
          else acc)
        [] := by
    rw [List.foldl_map]
  rw [← h1]
  have h2 : ∀ (acc : List Str) (n : Str),
      (if ¬ jsEndsWith (lit ".md") (n.map Char.toLower) then acc
       else if n = pfx ∨ n = pfx.dropLast then acc
       else if pfx.isPrefixOf n then acc ++ [n.drop pfx.length]
       else acc) =
      (if jsEndsWith (lit ".md") (n.map Char.toLower) ∧
          ¬(n = pfx ∨ n = pfx.dropLast) ∧ pfx.isPrefixOf n then
        acc ++ [n.drop pfx.length]
       else acc) := by
    intro acc n
    by_cases hA : jsEndsWith (lit ".md") (n.map Char.toLower)
    · by_cases hB : n = pfx ∨ n = pfx.dropLast
      · simp [hA, hB]
      · by_cases hC : pfx.isPrefixOf n
        · simp [hA, hB, hC]
        · simp [hA, hB, hC]
    · simp [hA]
  rw [foldl_fn_congr _ _ h2]
  exact foldl_push_filter_map _ _ _ []

/-- Claim C8: on diff success the selector returns exactly the deduplicated,
prefix-stripped `.md` diff lines under the prefix (prefix itself excluded);
a failure with exit status 128 yields the null sentinel; any other failure
propagates. -/
theorem C8_change_selector (execDiff : Except Nat Str) (docsPfx : Str) :
    (∀ out, execDiff = .ok out →
      getChangedMdPaths execDiff docsPfx =
        .ok (some (claimChangedPaths out
          (if docsPfx.getLast? = some '/' then docsPfx else docsPfx ++ ['/'])))) ∧
    (execDiff = .error 128 → getChangedMdPaths execDiff docsPfx = .ok none) ∧
    (∀ status, status ≠ 128 → execDiff = .error status →
      getChangedMdPaths execDiff docsPfx = .error status) := by
  refine ⟨?_, ?_, ?_⟩
  · rintro out rfl
    simp only [getChangedMdPaths, claimChangedPaths]
    rw [changed_fold_eq]
  · rintro rfl
    simp [getChangedMdPaths]
  · rintro status hs rfl
    simp [getChangedMdPaths, hs]

/-- Witness for claim C8: a concrete two-line diff output. -/
theorem C8_witness :
    getChangedMdPaths (.ok (lit "docs/a.md\nREADME.txt")) (lit "docs") =
      .ok (some (claimChangedPaths (lit "docs/a.md\nREADME.txt") (lit "docs/"))) := by
  have h := (C8_change_selector (.ok (lit "docs/a.md\nREADME.txt")) (lit "docs")).1
    (lit "docs/a.md\nREADME.txt") rfl
  rw [h]
  rfl

/-! ## String lemmas shared by the codec and decision proofs -/

/-- `dropWhile` is the identity when the head does not satisfy the
predicate. -/
theorem dropWhile_eq_self_of_head (p : Char → Bool) (l : Str)
    (hh : ∀ c, l.head? = some c → p c = false) : l.dropWhile p = l := by
  cases l with
  | nil => rfl
  | cons x xs =>
    rw [List.dropWhile_cons, if_neg]
    simp [hh x rfl]

/-- The head of a `dropWhile` result does not satisfy the predicate. -/
theorem head?_dropWhile_false (p : Char → Bool) (l : Str) :
    ∀ c, (l.dropWhile p).head? = some c → p c = false := by
  induction l with
  | nil => intro c h; simp at h
  | cons x xs ih =>
    intro c h
    rw [List.dropWhile_cons] at h
    by_cases hx : p x
    · rw [if_pos hx] at h
      exact ih c h
    · rw [if_neg hx] at h
      simp only [List.head?_cons, Option.some.injEq] at h
      subst h
      simpa using hx

/-- A non-empty `dropWhile` result keeps the last element. -/
theorem getLast?_dropWhile (p : Char → Bool) (l : Str)
    (h : l.dropWhile p ≠ []) : (l.dropWhile p).getLast? = l.getLast? := by
  obtain ⟨t, ht⟩ := l.dropWhile_suffix p
  conv_rhs => rw [← ht]
  exact (List.getLast?_append_of_ne_nil t h).symm

/-- `jsTrim` is the identity on a string whose ends are not whitespace. -/
theorem jsTrim_eq_self (l : Str)
    (hh : ∀ c, l.head? = some c → jsWhitespace c = false)
    (hl : ∀ c, l.getLast? = some c → jsWhitespace c = false) : jsTrim l = l := by
  unfold jsTrim
  rw [dropWhile_eq_self_of_head _ _ hh]
  rw [dropWhile_eq_self_of_head _ _
    (fun c hc => hl c ((List.head?_reverse l) ▸ hc))]
  exact List.reverse_reverse l

/-- `jsTrim` is idempotent. -/
theorem jsTrim_idem (s : Str) : jsTrim (jsTrim s) = jsTrim s := by
  apply jsTrim_eq_self
  · intro c hc
    unfold jsTrim at hc
    rw [List.head?_reverse] at hc
    have hne : (s.dropWhile jsWhitespace).reverse.dropWhile jsWhitespace ≠ [] := by
      intro he
      rw [he] at hc
      simp at hc
    rw [getLast?_dropWhile _ _ hne] at hc
    rw [List.getLast?_reverse] at hc
    exact head?_dropWhile_false _ _ c hc
  · intro c hc
    unfold jsTrim at hc
    rw [List.getLast?_reverse] at hc
    exact head?_dropWhile_false _ _ c hc

/-- A decoded frontmatter identifier is already trimmed and non-empty. -/
theorem parse_id_trimmed (raw : Str) (id : Str)
    (h : (parseMdWithNotionId raw).notionPageId = some id) :
    jsTrim id = id ∧ id ≠ [] := by
  unfold parseMdWithNotionId at h
  rcases hm : matchFrontmatter raw with _ | bl
  · rw [hm] at h
    simp at h
  · rw [hm] at h
    simp only at h
    rcases hg : recordGet (parseFrontmatterBlock bl.1) notionPageIdKey with _ | v
    · rw [hg] at h
      simp at h
    · rw [hg] at h
      simp only at h
      by_cases he : jsTrim v ≠ []
      · rw [if_pos he] at h
        simp only [Option.some.injEq] at h
        subst h
        exact ⟨jsTrim_idem v, he⟩
      · rw [if_neg he] at h
        simp at h

/-! ## Folder resolution idempotence (claim C9) -/

/-- `recordSet` keeps every key that was present. -/
theorem recordSet_keeps_key (m : List (Str × Str)) (k v t : Str)
    (h : m.any (fun p => p.1 = t)) : (recordSet m k v).any (fun p => p.1 = t) := by
  unfold recordSet
  split_ifs with hk
  · simp only [List.any_eq_true] at h ⊢
    obtain ⟨p, hp, ht⟩ := h
    refine ⟨if p.1 = k then (k, v) else p, List.mem_map_of_mem _ hp, ?_⟩
    simp only [decide_eq_true_eq] at ht
    by_cases hpk : p.1 = k
    · rw [if_pos hpk]
      simp [hpk.symm.trans ht]
    · rw [if_neg hpk]
      simp [ht]
  · simp [List.any_append, h]

/-- `recordSet` makes its own key present. -/
theorem recordSet_adds_key (m : List (Str × Str)) (k v : Str) :
    (recordSet m k v).any (fun p => p.1 = k) := by
  unfold recordSet
  split_ifs with hk
  · simp only [List.any_eq_true] at hk ⊢
    obtain ⟨p, hp, ht⟩ := hk
    refine ⟨if p.1 = k then (k, v) else p, List.mem_map_of_mem _ hp, ?_⟩
    simp only [decide_eq_true_eq] at ht
    rw [if_pos ht]
    simp
  · simp [List.any_append]

/-- The folder-resolution fold only ever grows the set of cached titles. -/
theorem ensure_fold_keeps_key (lookupChild : Str → Str → Option Str)
    (createId : Str → Str → Str) (rootPageId : Str) (titles : List Str) :
    ∀ (acc : List (Str × Str) × List FolderCall) (t : Str),
      acc.1.any (fun p => p.1 = t) →
      (titles.foldl
        (fun acc folderTitle =>
          if acc.1.any (fun p => p.1 = folderTitle) then acc
          else
            let r := getOrCreateFolderPage lookupChild createId rootPageId folderTitle
            (recordSet acc.1 folderTitle r.1, acc.2 ++ r.2))
        acc).1.any (fun p => p.1 = t) := by
  induction titles with
  | nil => intro acc t h; exact h
  | cons t0 ts ih =>
    intro acc t h
    simp only [List.foldl_cons]
    split_ifs with h0
    · exact ih acc t h
    · exact ih _ t (recordSet_keeps_key _ _ _ _ h)

/-- After one folder-resolution run every requested title is cached. -/
theorem ensure_all_present (lookupChild : Str → Str → Option Str)
    (createId : Str → Str → Str) (rootPageId : Str) (titles : List Str) :
    ∀ (acc : List (Str × Str) × List FolderCall), ∀ t ∈ titles,
      (titles.foldl
        (fun acc folderTitle =>
          if acc.1.any (fun p => p.1 = folderTitle) then acc
          else
            let r := getOrCreateFolderPage lookupChild createId rootPageId folderTitle
            (recordSet acc.1 folderTitle r.1, acc.2 ++ r.2))
        acc).1.any (fun p => p.1 = t) := by
  induction titles with
  | nil => intro acc t h; simp at h
  | cons t0 ts ih =>
    intro acc t ht
    simp only [List.foldl_cons]
    rcases List.mem_cons.mp ht with rfl | hts
    · split_ifs with h0
      · exact ensure_fold_keeps_key lookupChild createId rootPageId ts acc t h0
      · exact ensure_fold_keeps_key lookupChild createId rootPageId ts _ t
          (recordSet_adds_key _ _ _)
    · split_ifs with h0
      · exact ih acc t hts
      · exact ih _ t hts

/-- A folder-resolution fold over titles that are all cached is the
identity and performs no calls. -/
theorem ensure_fold_noop (lookupChild : Str → Str → Option Str)
    (createId : Str → Str → Str) (rootPageId : Str) (titles : List Str) :
    ∀ (cache : List (Str × Str)) (tr : List FolderCall),
      (∀ t ∈ titles, cache.any (fun p => p.1 = t)) →
      titles.foldl
        (fun acc folderTitle =>
          if acc.1.any (fun p => p.1 = folderTitle) then acc
          else
            let r := getOrCreateFolderPage lookupChild createId rootPageId folderTitle
            (recordSet acc.1 folderTitle r.1, acc.2 ++ r.2))
        (cache, tr) = (cache, tr) := by
  induction titles with
  | nil => intro cache tr _; rfl
  | cons t0 ts ih =>
    intro cache tr h
    simp only [List.foldl_cons]
    rw [if_pos (h t0 (List.mem_cons_self t0 ts))]
    exact ih cache tr (fun t ht => h t (List.mem_cons_of_mem t0 ht))

/-- Claim C9: after one folder-resolution run every title is cached, and a
second run with the same title set and the produced cache performs no remote
lookup or creation calls and returns a cache equal to its input. -/
theorem C9_folder_resolution_idempotent (lookupChild : Str → Str → Option Str)
    (createId : Str → Str → Str) (rootPageId : Str) (titles : List Str)
    (initialCache : List (Str × Str)) :
    (∀ t ∈ titles,
      (ensureFolderPagesCache lookupChild createId rootPageId titles initialCache).1.any
        (fun p => p.1 = t)) ∧
    ensureFolderPagesCache lookupChild createId rootPageId titles
        (ensureFolderPagesCache lookupChild createId rootPageId titles initialCache).1 =
      ((ensureFolderPagesCache lookupChild createId rootPageId titles initialCache).1, []) := by
  constructor
  · intro t ht
    exact ensure_all_present lookupChild createId rootPageId titles _ t ht
  · exact ensure_fold_noop lookupChild createId rootPageId titles _ []
      (fun t ht => ensure_all_present lookupChild createId rootPageId titles _ t ht)

/-! ## Object access lemmas for the sanitizer -/

/-- `jget` on an object is a `find?` over its fields. -/
theorem jget_obj (f : List (Str × JVal)) (q : Str) :
    jget (.obj f) q = (f.find? (fun p => p.1 = q)).map Prod.snd := rfl

/-- `jget` steps through a cons cell of fields. -/
theorem jget_obj_cons (k : Str) (v : JVal) (fields : List (Str × JVal)) (q : Str) :
    jget (.obj ((k, v) :: fields)) q = if k = q then some v else jget (.obj fields) q := by
  rw [jget_obj, jget_obj, List.find?_cons]
  by_cases h : k = q <;> simp [h]

/-- `find?` only depends on the predicate pointwise. -/
theorem find?_fn_congr {κ : Type} (p1 p2 : κ → Bool) (h : ∀ a, p1 a = p2 a)
    (l : List κ) : l.find? p1 = l.find? p2 := by
  induction l with
  | nil => rfl
  | cons a l ih => rw [List.find?_cons, List.find?_cons, h a, ih]

/-- Reading back through `{ ...v, k: x }`: the updated key holds the new
value, every other key is unchanged. -/
theorem jget_objSet (f : List (Str × JVal)) (k q : Str) (x : JVal) :
    jget (objSet (.obj f) k x) q = if k = q then some x else jget (.obj f) q := by
  show jget (.obj (if f.any (fun p => p.1 = k) then
      f.map (fun p => if p.1 = k then (k, x) else p) else f ++ [(k, x)])) q = _
  by_cases hany : f.any (fun p => decide (p.1 = k)) = true
  · rw [if_pos hany, jget_obj, List.find?_map]
    by_cases hkq : k = q
    · subst hkq
      have hcong : ∀ p : Str × JVal,
          ((fun p => decide (p.1 = k)) ∘ fun p => if p.1 = k then (k, x) else p) p =
            decide (p.1 = k) := by
        intro p
        by_cases hp : p.1 = k <;> simp [hp]
      rw [find?_fn_congr _ _ hcong]
      have hne : f.find? (fun p => decide (p.1 = k)) ≠ none := by
        rw [Ne, List.find?_eq_none]
        push_neg
        obtain ⟨p, hp, hpk⟩ := List.any_eq_true.mp hany
        exact ⟨p, hp, hpk⟩
      obtain ⟨p0, hp0⟩ := Option.ne_none_iff_exists'.mp hne
      rw [hp0]
      have hk0 : p0.1 = k := by simpa using List.find?_some hp0
      simp [hk0]
    · have hcong : ∀ p : Str × JVal,
          ((fun p => decide (p.1 = q)) ∘ fun p => if p.1 = k then (k, x) else p) p =
            decide (p.1 = q) := by
        intro p
        by_cases hp : p.1 = k
        · simp [hp, hkq]
        · simp [hp]
      rw [find?_fn_congr _ _ hcong]
      rw [if_neg hkq, jget_obj]
      rcases hf : f.find? (fun p => decide (p.1 = q)) with _ | p0
      · rw [hf]
        simp
      · have hq0 : p0.1 = q := by simpa using List.find?_some hf
        have hp0k : ¬ p0.1 = k := by
          rw [hq0]
          exact fun hh => hkq hh.symm
        rw [hf]
        simp [Function.comp, hp0k]
  · rw [if_neg hany, jget_obj, List.find?_append]
    by_cases hkq : k = q
    · subst hkq
      have hnone : f.find? (fun p => decide (p.1 = k)) = none := by
        rw [List.find?_eq_none]
        intro p hp hpk
        exact hany (List.any_eq_true.mpr ⟨p, hp, hpk⟩)
      rw [hnone]
      simp [List.find?_cons]
    · rw [if_neg hkq, jget_obj]
      have hsingle : ([(k, x)] : List (Str × JVal)).find? (fun p => decide (p.1 = q)) = none := by
        simp [List.find?_cons, hkq]
      rw [hsingle]
      simp

/-- Property reads on non-object values are undefined. -/
theorem jget_null (q : Str) : jget .null q = none := rfl

/-- Property reads on booleans are undefined. -/
theorem jget_bool (b : Bool) (q : Str) : jget (.bool b) q = none := rfl

/-- Property reads on numbers are undefined. -/
theorem jget_num (n : Int) (q : Str) : jget (.num n) q = none := rfl

/-- Property reads on strings are undefined (named properties). -/
theorem jget_str (s : Str) (q : Str) : jget (.str s) q = none := rfl

/-- Property reads on arrays are undefined (named properties). -/
theorem jget_arr (es : List JVal) (q : Str) : jget (.arr es) q = none := rfl

/-- `objSet` on an object yields an object. -/
theorem objSet_obj_shape (f : List (Str × JVal)) (k : Str) (x : JVal) :
    ∃ f2, objSet (.obj f) k x = .obj f2 := by
  unfold objSet
  exact ⟨_, rfl⟩

/-- Every rich-text item produced by the sanitizer satisfies the link
condition: a kept link has a scheme-valid url. -/
theorem itemLinkOk_sanitizeItem (item : JVal) : itemLinkOk (sanitizeItem item) = true := by
  rcases hty : jget item (lit "type") with _ | tyv
  · simp only [sanitizeItem, itemLinkOk, hty]
  · cases tyv with
    | null => simp only [sanitizeItem, itemLinkOk, hty]
    | bool b => simp only [sanitizeItem, itemLinkOk, hty]
    | num n => simp only [sanitizeItem, itemLinkOk, hty]
    | arr es => simp only [sanitizeItem, itemLinkOk, hty]
    | obj fs => simp only [sanitizeItem, itemLinkOk, hty]
    | str ty =>
      rcases htx : jget item (lit "text") with _ | tv
      · simp only [sanitizeItem, itemLinkOk, hty, htx]
      · by_cases hcond : ty = lit "text" ∧ jtruthy (some tv) = true
        · simp only [sanitizeItem, hty, htx, if_pos hcond]
          rcases hlk : jget tv (lit "link") with _ | lv
          · simp +decide [itemLinkOk, jget_obj_cons, jtruthy]
          · rcases lv with _ | b | n | s | es | fs2
            · simp +decide [itemLinkOk, jget_obj_cons, jtruthy]
            · simp +decide [itemLinkOk, jget_obj_cons, jget_bool, jtruthy]
            · simp +decide [itemLinkOk, jget_obj_cons, jget_num, jtruthy]
            · simp +decide [itemLinkOk, jget_obj_cons, jget_str, jtruthy]
            · simp +decide [itemLinkOk, jget_obj_cons, jget_arr, jtruthy]
            · rcases hurl : jget (JVal.obj fs2) (lit "url") with _ | u
              · simp +decide [hurl, itemLinkOk, jget_obj_cons, jtruthy]
              · simp only [hurl]
                by_cases hval : (jtruthy (some u) && isValidNotionUrl (some u)) = true
                · rw [if_pos hval]
                  have hv2 := (Bool.and_eq_true _ _ |>.mp hval).2
                  simp +decide [itemLinkOk, jget_obj_cons, jtruthy, hv2]
                · rw [if_neg hval]
                  simp +decide [itemLinkOk, jget_obj_cons, jtruthy]
        · simp only [sanitizeItem, itemLinkOk, hty, htx, if_neg hcond]

/-! ## Create-vs-update decision (claim C4) -/

/-- Claim C4: a document whose decoded identifier is absent (which covers an
identifier empty after trimming — the decoder already normalises those away)
or fails remote validation is created directly under the resolved parent with
action `created`; a document whose identifier is already validated or
validates now is trashed and then recreated under the resolved parent with
action `updated`. A not-found identifier thus behaves exactly like an absent
one. -/
theorem C4_create_update_decision
    (md2b : Str → Except Unit (Option (List JVal))) (remoteHas : Str → Bool)
    (newPageId rootPageId : Str) (folderPageCache : List (Str × Str))
    (validatedPageIds : List Str) (relPath rawContent : Str) :
    let out := syncOneDoc md2b remoteHas newPageId rootPageId folderPageCache
      validatedPageIds relPath rawContent
    let parentPageId := resolveNotionParentId rootPageId
      (parseRelPath relPath).folderTitle folderPageCache
    let title := (parseRelPath relPath).docTitle
    let chunks := chunkBlocks
      (convertMarkdownToNotionBlocks md2b (parseMdWithNotionId rawContent).body)
      NOTION_BLOCK_CHUNK_SIZE
    let newContent := stringifyMdWithNotionId (parseMdWithNotionId rawContent).body
      (parseMdWithNotionId rawContent).data newPageId
    ((parseMdWithNotionId rawContent).notionPageId = none →
      out.1.action = .created ∧
      out.2.1 = [.createPage parentPageId title chunks, .writeFile relPath newContent]) ∧
    (∀ id, (parseMdWithNotionId rawContent).notionPageId = some id →
      id ∉ validatedPageIds → remoteHas id = false →
      out.1.action = .created ∧
      out.2.1 = [.createPage parentPageId title chunks, .writeFile relPath newContent]) ∧
    (∀ id, (parseMdWithNotionId rawContent).notionPageId = some id →
      (id ∈ validatedPageIds ∨ remoteHas id = true) →
      out.1.action = .updated ∧
      out.2.1 = [.trash id, .createPage parentPageId title chunks,
        .writeFile relPath newContent]) := by
  refine ⟨?_, ?_, ?_⟩
  · intro h
    simp only [syncOneDoc, resolveExistingDocPageId, h]
    simp
  · intro id h h1 h2
    obtain ⟨htrim, hne⟩ := parse_id_trimmed rawContent id h
    simp only [syncOneDoc, resolveExistingDocPageId, h, htrim]
    rw [if_neg hne, if_neg h1, if_neg (by simp [h2])]
    simp
  · intro id h hval
    obtain ⟨htrim, hne⟩ := parse_id_trimmed rawContent id h
    simp only [syncOneDoc, resolveExistingDocPageId, h, htrim]
    rw [if_neg hne]
    rcases hval with hmem | hrem
    · rw [if_pos hmem]
      simp
    · by_cases hmem : id ∈ validatedPageIds
      · rw [if_pos hmem]
        simp
      · rw [if_neg hmem, if_pos hrem]
        simp

/-- Witness for claim C4: a document carrying an already-validated
identifier is updated (trash then recreate); one carrying an identifier that
fails remote validation is created. -/
theorem C4_witness :
    (syncOneDoc (fun _ => .error ()) (fun _ => false) (lit "new") (lit "root") []
        [lit "abc"] (lit "intro.md") (lit "---\nnotion_page_id: abc\n---\nbody")).1.action =
      DocAction.updated ∧
    (syncOneDoc (fun _ => .error ()) (fun _ => false) (lit "new") (lit "root") []
        [] (lit "intro.md") (lit "---\nnotion_page_id: abc\n---\nbody")).1.action =
      DocAction.created :=
  ⟨((C4_create_update_decision (fun _ => .error ()) (fun _ => false) (lit "new")
      (lit "root") [] [lit "abc"] (lit "intro.md")
      (lit "---\nnotion_page_id: abc\n---\nbody")).2.2 (lit "abc") (by decide)
      (Or.inl (by decide))).1,
    ((C4_create_update_decision (fun _ => .error ()) (fun _ => false) (lit "new")
      (lit "root") [] [] (lit "intro.md")
      (lit "---\nnotion_page_id: abc\n---\nbody")).2.1 (lit "abc") (by decide)
      (by decide) rfl).1⟩

/-! ## Sanitation link validity (claims C5 and C10 support) -/

/-- Unfolding of the sanitizer field loop when both a `rich_text` array and a
`children` array are present. -/
theorem sanitizeField_eq_both (k : Str) (fields : List (Str × JVal))
    (items cs : List JVal) (hk : ¬ k = lit "type")
    (hrt : jget (JVal.obj fields) (lit "rich_text") = some (JVal.arr items))
    (hch : jget (JVal.obj fields) (lit "children") = some (JVal.arr cs)) :
    sanitizeField k (JVal.obj fields) =
      objSet (objSet (JVal.obj fields) (lit "rich_text")
          (JVal.arr (sanitizeRichText items)))
        (lit "children") (JVal.arr (sanitizeBlocks cs)) := by
  rw [sanitizeField, if_neg hk]
  · split
    · rename_i items2 heq
      rw [hrt] at heq
      simp only [Option.some.injEq, JVal.arr.injEq] at heq
      subst heq
      split
      · rename_i cs2 heq2
        rw [hch] at heq2
        simp only [Option.some.injEq, JVal.arr.injEq] at heq2
        subst heq2
        rfl
      · rename_i x hno
        exact absurd hch (by intro hc; exact hno cs hc)
    · rename_i x hno
      exact absurd hrt (hno items)
  · exact fun h => by cases h
  · exact fun b h => by cases h
  · exact fun n2 h => by cases h
  · exact fun s2 h => by cases h

/-- Unfolding of the sanitizer field loop when only a `rich_text` array is
present. -/
theorem sanitizeField_eq_rt (k : Str) (fields : List (Str × JVal))
    (items : List JVal) (hk : ¬ k = lit "type")
    (hrt : jget (JVal.obj fields) (lit "rich_text") = some (JVal.arr items))
    (hchA : ¬ ∃ cs, jget (JVal.obj fields) (lit "children") = some (JVal.arr cs)) :
    sanitizeField k (JVal.obj fields) =
      objSet (JVal.obj fields) (lit "rich_text")
        (JVal.arr (sanitizeRichText items)) := by
  rw [sanitizeField, if_neg hk]
  · split
    · rename_i items2 heq
      rw [hrt] at heq
      simp only [Option.some.injEq, JVal.arr.injEq] at heq
      subst heq
      split
      · rename_i cs2 heq2
        exact absurd ⟨cs2, heq2⟩ hchA
      · rfl
    · rename_i x hno
      exact absurd hrt (hno items)
  · exact fun h => by cases h
  · exact fun b h => by cases h
  · exact fun n2 h => by cases h
  · exact fun s2 h => by cases h

/-- Unfolding of the sanitizer field loop when only a `children` array is
present. -/
theorem sanitizeField_eq_ch (k : Str) (fields : List (Str × JVal))
    (cs : List JVal) (hk : ¬ k = lit "type")
    (hrtA : ¬ ∃ items, jget (JVal.obj fields) (lit "rich_text") = some (JVal.arr items))
    (hch : jget (JVal.obj fields) (lit "children") = some (JVal.arr cs)) :
    sanitizeField k (JVal.obj fields) =
      objSet (JVal.obj fields) (lit "children")
        (JVal.arr (sanitizeBlocks cs)) := by
  rw [sanitizeField, if_neg hk]
  · split
    · rename_i items2 heq
      exact absurd ⟨items2, heq⟩ hrtA
    · split
      · rename_i cs2 heq2
        rw [hch] at heq2
        simp only [Option.some.injEq, JVal.arr.injEq] at heq2
        subst heq2
        rfl
      · rename_i x hno
        exact absurd hch (hno cs)
  · exact fun h => by cases h
  · exact fun b h => by cases h
  · exact fun n2 h => by cases h
  · exact fun s2 h => by cases h

/-- The sanitizer field loop leaves an object without `rich_text` and
`children` arrays unchanged. -/
theorem sanitizeField_eq_none (k : Str) (fields : List (Str × JVal))
    (hk : ¬ k = lit "type")
    (hrtA : ¬ ∃ items, jget (JVal.obj fields) (lit "rich_text") = some (JVal.arr items))
    (hchA : ¬ ∃ cs, jget (JVal.obj fields) (lit "children") = some (JVal.arr cs)) :
    sanitizeField k (JVal.obj fields) = JVal.obj fields := by
  rw [sanitizeField, if_neg hk]
  · split
    · rename_i items2 heq
      exact absurd ⟨items2, heq⟩ hrtA
    · split
      · rename_i cs2 heq2
        exact absurd ⟨cs2, heq2⟩ hchA
      · rfl
  · exact fun h => by cases h
  · exact fun b h => by cases h
  · exact fun n2 h => by cases h
  · exact fun s2 h => by cases h

theorem all_sanitizeRichText (items : List JVal) :
    (sanitizeRichText items).all itemLinkOk = true := by
  rw [List.all_eq_true]
  intro it hit
  rw [sanitizeRichText] at hit
  obtain ⟨it0, hmem, rfl⟩ := List.mem_map.mp hit
  exact itemLinkOk_sanitizeItem it0

theorem sanitize_linkOk (n : Nat) :
    (∀ bs : List JVal, sizeOf bs ≤ n → blocksLinkOk (sanitizeBlocks bs) = true) ∧
    (∀ fs : List (Str × JVal), sizeOf fs ≤ n → fieldsLinkOk (sanitizeFields fs) = true) ∧
    (∀ (k : Str) (v : JVal), sizeOf v ≤ n → fieldLinkOk k (sanitizeField k v) = true) := by
  induction n using Nat.strong_induction_on with
  | _ n ih =>
    refine ⟨?_, ?_, ?_⟩
    · intro bs hbs
      cases bs with
      | nil => simp [sanitizeBlocks, blocksLinkOk]
      | cons b rest =>
        have hszrest : sizeOf rest < n := by
          have h1 : sizeOf rest < sizeOf (b :: rest) := by
            simp
            try omega
          omega
        have hrest : blocksLinkOk (sanitizeBlocks rest) = true :=
          (ih (sizeOf rest) hszrest).1 rest le_rfl
        cases b with
        | obj fields =>
          have hszf : sizeOf fields < n := by
            have h1 : sizeOf fields < sizeOf (JVal.obj fields :: rest) := by
              simp
              try omega
            omega
          have hfields : fieldsLinkOk (sanitizeFields fields) = true :=
            (ih (sizeOf fields) hszf).2.1 fields le_rfl
          simp [sanitizeBlocks, blocksLinkOk, hfields, hrest]
        | null => simp [sanitizeBlocks, blocksLinkOk, hrest]
        | bool b2 => simp [sanitizeBlocks, blocksLinkOk, hrest]
        | num n2 => simp [sanitizeBlocks, blocksLinkOk, hrest]
        | str s2 => simp [sanitizeBlocks, blocksLinkOk, hrest]
        | arr es => simp [sanitizeBlocks, blocksLinkOk, hrest]
    · intro fs hfs
      cases fs with
      | nil => simp [sanitizeFields, fieldsLinkOk]
      | cons p rest =>
        obtain ⟨k, v⟩ := p
        have hszrest : sizeOf rest < n := by
          have h1 : sizeOf rest < sizeOf ((k, v) :: rest) := by
            simp
            try omega
          omega
        have hrest : fieldsLinkOk (sanitizeFields rest) = true :=
          (ih (sizeOf rest) hszrest).2.1 rest le_rfl
        have hszv : sizeOf v < n := by
          have h1 : sizeOf v < sizeOf ((k, v) :: rest) := by
            simp
            try omega
          omega
        have hfield : fieldLinkOk k (sanitizeField k v) = true :=
          (ih (sizeOf v) hszv).2.2 k v le_rfl
        simp [sanitizeFields, fieldsLinkOk, hfield, hrest]
    · intro k v hv
      by_cases hk : k = lit "type"
      · rw [fieldLinkOk, if_pos hk]
      · cases v with
        | null =>
          have hs : sanitizeField k JVal.null = JVal.null := by
            rw [sanitizeField, if_neg hk]
          rw [hs, fieldLinkOk, if_neg hk]
          simp [jget_null]
        | bool b =>
          have hs : sanitizeField k (JVal.bool b) = JVal.bool b := by
            rw [sanitizeField, if_neg hk]
          rw [hs, fieldLinkOk, if_neg hk]
          simp [jget_bool]
        | num n2 =>
          have hs : sanitizeField k (JVal.num n2) = JVal.num n2 := by
            rw [sanitizeField, if_neg hk]
          rw [hs, fieldLinkOk, if_neg hk]
          simp [jget_num]
        | str s2 =>
          have hs : sanitizeField k (JVal.str s2) = JVal.str s2 := by
            rw [sanitizeField, if_neg hk]
          rw [hs, fieldLinkOk, if_neg hk]
          simp [jget_str]
        | arr es =>
          have hs : sanitizeField k (JVal.arr es) = JVal.arr es := by
            rw [sanitizeField, if_neg hk]
            · simp [jget_arr]
            · exact fun h => by cases h
            · exact fun b h => by cases h
            · exact fun n2 h => by cases h
            · exact fun s2 h => by cases h
          rw [hs, fieldLinkOk, if_neg hk]
          simp [jget_arr]
        | obj fields =>
          have hchsz : ∀ cs : List JVal,
              jget (JVal.obj fields) (lit "children") = some (JVal.arr cs) →
              blocksLinkOk (sanitizeBlocks cs) = true := by
            intro cs hch
            have h1 : sizeOf (JVal.arr cs) < sizeOf (JVal.obj fields) := jget_sizeOf hch
            have h2 : sizeOf cs < n := by
              simp at h1
              simp at hv
              omega
            exact (ih (sizeOf cs) h2).1 cs le_rfl
          by_cases hrtA : ∃ items, jget (JVal.obj fields) (lit "rich_text") = some (JVal.arr items)
          · obtain ⟨items, hrt⟩ := hrtA
            by_cases hchA : ∃ cs, jget (JVal.obj fields) (lit "children") = some (JVal.arr cs)
            · obtain ⟨cs, hch⟩ := hchA
              have hs := sanitizeField_eq_both k fields items cs hk hrt hch
              obtain ⟨f1, hf1⟩ := objSet_obj_shape fields (lit "rich_text")
                (JVal.arr (sanitizeRichText items))
              rw [hs, hf1]
              have hORT : jget (objSet (JVal.obj f1) (lit "children")
                  (JVal.arr (sanitizeBlocks cs))) (lit "rich_text") =
                  some (JVal.arr (sanitizeRichText items)) := by
                rw [jget_objSet, if_neg (by decide), ← hf1, jget_objSet, if_pos rfl]
              have hOCH : jget (objSet (JVal.obj f1) (lit "children")
                  (JVal.arr (sanitizeBlocks cs))) (lit "children") =
                  some (JVal.arr (sanitizeBlocks cs)) := by
                rw [jget_objSet, if_pos rfl]
              rw [fieldLinkOk, if_neg hk, Bool.and_eq_true]
              refine ⟨?_, ?_⟩
              · split
                · rename_i items2 heq
                  rw [hORT] at heq
                  simp only [Option.some.injEq, JVal.arr.injEq] at heq
                  subst heq
                  exact all_sanitizeRichText items
                · rfl
              · split
                · rename_i cs2 heq
                  rw [hOCH] at heq
                  simp only [Option.some.injEq, JVal.arr.injEq] at heq
                  subst heq
                  exact hchsz cs hch
                · rfl
            · have hs := sanitizeField_eq_rt k fields items hk hrt hchA
              rw [hs]
              have hORT : jget (objSet (JVal.obj fields) (lit "rich_text")
                  (JVal.arr (sanitizeRichText items))) (lit "rich_text") =
                  some (JVal.arr (sanitizeRichText items)) := by
                rw [jget_objSet, if_pos rfl]
              have hOCH : jget (objSet (JVal.obj fields) (lit "rich_text")
                  (JVal.arr (sanitizeRichText items))) (lit "children") =
                  jget (JVal.obj fields) (lit "children") := by
                rw [jget_objSet, if_neg (by decide)]
              rw [fieldLinkOk, if_neg hk, Bool.and_eq_true]
              refine ⟨?_, ?_⟩
              · split
                · rename_i items2 heq
                  rw [hORT] at heq
                  simp only [Option.some.injEq, JVal.arr.injEq] at heq
                  subst heq
                  exact all_sanitizeRichText items
                · rfl
              · split
                · rename_i cs2 heq
                  rw [hOCH] at heq
                  exact absurd ⟨cs2, heq⟩ hchA
                · rfl
          · by_cases hchA : ∃ cs, jget (JVal.obj fields) (lit "children") = some (JVal.arr cs)
            · obtain ⟨cs, hch⟩ := hchA
              have hs := sanitizeField_eq_ch k fields cs hk hrtA hch
              rw [hs]
              have hORT : jget (objSet (JVal.obj fields) (lit "children")
                  (JVal.arr (sanitizeBlocks cs))) (lit "rich_text") =
                  jget (JVal.obj fields) (lit "rich_text") := by
                rw [jget_objSet, if_neg (by decide)]
              have hOCH : jget (objSet (JVal.obj fields) (lit "children")
                  (JVal.arr (sanitizeBlocks cs))) (lit "children") =
                  some (JVal.arr (sanitizeBlocks cs)) := by
                rw [jget_objSet, if_pos rfl]
              rw [fieldLinkOk, if_neg hk, Bool.and_eq_true]
              refine ⟨?_, ?_⟩
              · split
                · rename_i items2 heq
                  rw [hORT] at heq
                  exact absurd ⟨items2, heq⟩ hrtA
                · rfl
              · split
                · rename_i cs2 heq
                  rw [hOCH] at heq
                  simp only [Option.some.injEq, JVal.arr.injEq] at heq
                  subst heq
                  exact hchsz cs hch
                · rfl
            · have hs := sanitizeField_eq_none k fields hk hrtA hchA
              rw [hs, fieldLinkOk, if_neg hk, Bool.and_eq_true]
              refine ⟨?_, ?_⟩
              · split
                · rename_i items2 heq
                  exact absurd ⟨items2, heq⟩ hrtA
                · rfl
              · split
                · rename_i cs2 heq
                  exact absurd ⟨cs2, heq⟩ hchA
                · rfl



/-! ## Conversion robustness (claim C5) -/

theorem sanitizeBlocks_length (bs : List JVal) : (sanitizeBlocks bs).length = bs.length := by
  induction bs with
  | nil => simp [sanitizeBlocks]
  | cons b rest ih => cases b <;> simp [sanitizeBlocks, ih]

theorem sanitizeBlocks_failure_block (content : Str) :
    sanitizeBlocks [conversionFailureBlock content] = [conversionFailureBlock content] := by
  simp +decide [conversionFailureBlock, sanitizeBlocks, sanitizeFields, sanitizeField,
    sanitizeItem, sanitizeRichText, objSet, jget, jtruthy, lit, List.find?]

theorem sanitizeBlocks_fallback : sanitizeBlocks [FALLBACK_BLOCK] = [FALLBACK_BLOCK] := by
  simp +decide [FALLBACK_BLOCK, sanitizeBlocks, sanitizeFields, sanitizeField,
    sanitizeItem, sanitizeRichText, objSet, jget, jtruthy, lit, List.find?]


theorem jget_text_second (x : JVal) (tf : List (Str × JVal)) :
    jget (.obj [(lit "type", x), (lit "text", .obj tf)]) (lit "text") = some (.obj tf) := by
  rw [jget_obj_cons, if_neg (by decide), jget_obj_cons, if_pos rfl]

theorem sanitizeItem_content (item tv : JVal) (c : Str)
    (hty : jget item (lit "type") = some (.str (lit "text")))
    (htx : jget item (lit "text") = some tv)
    (htr : jtruthy (some tv) = true)
    (hc : jget tv (lit "content") = some (.str c)) :
    ∃ tf, jget (sanitizeItem item) (lit "text") = some (.obj tf) ∧
      jget (.obj tf) (lit "content") = some (.str c) := by
  simp only [sanitizeItem, hty, htx, hc]
  split
  · split
    · exact ⟨_, jget_text_second _ _, by rw [jget_obj_cons, if_pos rfl]⟩
    · exact ⟨_, jget_text_second _ _, by rw [jget_obj_cons, if_pos rfl]⟩
  · rename_i hno
    exact absurd ⟨by trivial, htr⟩ hno

theorem C5_conversion_robustness
    (md2b : Str → Except Unit (Option (List JVal))) (content : Str) :
    (md2b content = .error () →
      convertMarkdownToNotionBlocks md2b content = [conversionFailureBlock content]) ∧
    (md2b content = .ok none →
      convertMarkdownToNotionBlocks md2b content = [FALLBACK_BLOCK]) ∧
    (md2b content = .ok (some []) →
      convertMarkdownToNotionBlocks md2b content = [FALLBACK_BLOCK]) ∧
    convertMarkdownToNotionBlocks md2b content ≠ [] ∧
    blocksLinkOk (convertMarkdownToNotionBlocks md2b content) = true ∧
    (∀ item tv c, jget item (lit "type") = some (.str (lit "text")) →
      jget item (lit "text") = some tv → jtruthy (some tv) = true →
      jget tv (lit "content") = some (.str c) →
      ∃ tf, jget (sanitizeItem item) (lit "text") = some (.obj tf) ∧
        jget (.obj tf) (lit "content") = some (.str c)) := by
  refine ⟨?_, ?_, ?_, ?_, ?_, ?_⟩
  · intro h
    rw [convertMarkdownToNotionBlocks, h]
    exact sanitizeBlocks_failure_block content
  · intro h
    rw [convertMarkdownToNotionBlocks, h]
    exact sanitizeBlocks_fallback
  · intro h
    rw [convertMarkdownToNotionBlocks, h]
    exact sanitizeBlocks_fallback
  · rw [convertMarkdownToNotionBlocks]
    rcases md2b content with e | blocks
    · intro he
      have he2 : sanitizeBlocks (ensureBlocksArray
          (some [conversionFailureBlock content])) = [] := he
      have hl := congrArg List.length he2
      rw [sanitizeBlocks_length] at hl
      simp [ensureBlocksArray] at hl
    · intro he
      have he2 : sanitizeBlocks (ensureBlocksArray blocks) = [] := he
      have hl := congrArg List.length he2
      rw [sanitizeBlocks_length] at hl
      rcases blocks with _ | ⟨_ | bs⟩ <;> simp [ensureBlocksArray] at hl
  · rw [convertMarkdownToNotionBlocks]
    rcases md2b content with e | blocks
    · have h := sanitize_linkOk (sizeOf (ensureBlocksArray (some [conversionFailureBlock content])))
      exact h.1 _ le_rfl
    · have h := sanitize_linkOk (sizeOf (ensureBlocksArray blocks))
      exact h.1 _ le_rfl
  · exact fun item tv c h1 h2 h3 h4 => sanitizeItem_content item tv c h1 h2 h3 h4

theorem C5_witness :
    convertMarkdownToNotionBlocks (fun _ => .error ()) (lit "hi") =
      [conversionFailureBlock (lit "hi")] :=
  (C5_conversion_robustness (fun _ => .error ()) (lit "hi")).1 rfl



/-! ## Sanitation rebuild shape (claim C10) -/

/-- A rich-text item that is not a truthy text item passes through the
sanitizer unchanged. -/
theorem sanitizeItem_unchanged (item : JVal)
    (h : jget item (lit "type") ≠ some (.str (lit "text")) ∨
      jtruthy (jget item (lit "text")) = false) :
    sanitizeItem item = item := by
  rcases hty : jget item (lit "type") with _ | tyv
  · simp only [sanitizeItem, hty]
  · cases tyv with
    | null => simp only [sanitizeItem, hty]
    | bool b => simp only [sanitizeItem, hty]
    | num n => simp only [sanitizeItem, hty]
    | arr es => simp only [sanitizeItem, hty]
    | obj fs => simp only [sanitizeItem, hty]
    | str ty =>
      rcases htx : jget item (lit "text") with _ | tv
      · simp only [sanitizeItem, hty, htx]
      · simp only [sanitizeItem, hty, htx]
        rw [if_neg]
        rintro ⟨h1, h2⟩
        rcases h with h | h
        · exact h (by rw [hty, h1])
        · rw [htx] at h
          rw [h] at h2
          exact Bool.false_ne_true h2

/-- A truthy text item is rebuilt with only its type and text fields. -/
theorem sanitizeItem_rebuilt (item tv : JVal)
    (hty : jget item (lit "type") = some (.str (lit "text")))
    (htx : jget item (lit "text") = some tv)
    (htr : jtruthy (some tv) = true) :
    jget (sanitizeItem item) (lit "type") = some (.str (lit "text")) ∧
    (∃ tf, jget (sanitizeItem item) (lit "text") = some (.obj tf)) ∧
    (∀ q, q ≠ lit "type" → q ≠ lit "text" → jget (sanitizeItem item) q = none) := by
  simp only [sanitizeItem, hty, htx]
  split
  · refine ⟨by rw [jget_obj_cons, if_pos rfl], ⟨_, jget_text_second _ _⟩, ?_⟩
    intro q hq1 hq2
    rw [jget_obj_cons, if_neg (fun hh => hq1 hh.symm),
      jget_obj_cons, if_neg (fun hh => hq2 hh.symm)]
    rfl
  · rename_i hno
    exact absurd ⟨by trivial, htr⟩ hno

/-- The sanitizer rewrites a property's `rich_text` array to its
item-sanitized form. -/
theorem sanitizeField_rich_text_out (k : Str) (fields : List (Str × JVal))
    (items : List JVal) (hk : ¬ k = lit "type")
    (hrt : jget (JVal.obj fields) (lit "rich_text") = some (.arr items)) :
    jget (sanitizeField k (.obj fields)) (lit "rich_text") =
      some (.arr (sanitizeRichText items)) := by
  by_cases hchA : ∃ cs, jget (JVal.obj fields) (lit "children") = some (JVal.arr cs)
  · obtain ⟨cs, hch⟩ := hchA
    rw [sanitizeField_eq_both k fields items cs hk hrt hch]
    obtain ⟨f1, hf1⟩ := objSet_obj_shape fields (lit "rich_text")
      (JVal.arr (sanitizeRichText items))
    rw [hf1, jget_objSet, if_neg (by decide), ← hf1, jget_objSet, if_pos rfl]
  · rw [sanitizeField_eq_rt k fields items hk hrt hchA, jget_objSet, if_pos rfl]

/-- The sanitizer rewrites a property's `children` array to its recursively
sanitized form. -/
theorem sanitizeField_children_out (k : Str) (fields : List (Str × JVal))
    (cs : List JVal) (hk : ¬ k = lit "type")
    (hch : jget (JVal.obj fields) (lit "children") = some (.arr cs)) :
    jget (sanitizeField k (.obj fields)) (lit "children") =
      some (.arr (sanitizeBlocks cs)) := by
  by_cases hrtA : ∃ items, jget (JVal.obj fields) (lit "rich_text") = some (JVal.arr items)
  · obtain ⟨items, hrt⟩ := hrtA
    rw [sanitizeField_eq_both k fields items cs hk hrt hch]
    obtain ⟨f1, hf1⟩ := objSet_obj_shape fields (lit "rich_text")
      (JVal.arr (sanitizeRichText items))
    rw [hf1, jget_objSet, if_pos rfl]
  · rw [sanitizeField_eq_ch k fields cs hk hrtA hch, jget_objSet, if_pos rfl]

/-- Claim C10: sanitation rebuilds every truthy rich-text item of type
`text` keeping only its type and text object (every other field, such as
formatting annotations, is absent from the output); items of another type or
without a truthy text pass through unchanged; and a property's `rich_text`
array is item-sanitized while its `children` array is sanitized recursively
as blocks. -/
theorem C10_sanitation_rebuild :
    (∀ item tv, jget item (lit "type") = some (.str (lit "text")) →
      jget item (lit "text") = some tv → jtruthy (some tv) = true →
      jget (sanitizeItem item) (lit "type") = some (.str (lit "text")) ∧
      (∃ tf, jget (sanitizeItem item) (lit "text") = some (.obj tf)) ∧
      (∀ q, q ≠ lit "type" → q ≠ lit "text" → jget (sanitizeItem item) q = none)) ∧
    (∀ item, jget item (lit "type") ≠ some (.str (lit "text")) ∨
      jtruthy (jget item (lit "text")) = false → sanitizeItem item = item) ∧
    (∀ k fields items, ¬ k = lit "type" →
      jget (JVal.obj fields) (lit "rich_text") = some (.arr items) →
      jget (sanitizeField k (.obj fields)) (lit "rich_text") =
        some (.arr (sanitizeRichText items))) ∧
    (∀ k fields cs, ¬ k = lit "type" →
      jget (JVal.obj fields) (lit "children") = some (.arr cs) →
      jget (sanitizeField k (.obj fields)) (lit "children") =
        some (.arr (sanitizeBlocks cs))) :=
  ⟨fun item tv hty htx htr => sanitizeItem_rebuilt item tv hty htx htr,
    fun item h => sanitizeItem_unchanged item h,
    fun k fields items hk hrt => sanitizeField_rich_text_out k fields items hk hrt,
    fun k fields cs hk hch => sanitizeField_children_out k fields cs hk hch⟩

/-- Witness for claim C10: a bold annotation on a concrete text item is
absent after sanitation. -/
theorem C10_witness :
    jget (sanitizeItem (.obj [(lit "type", .str (lit "text")),
        (lit "text", .obj [(lit "content", .str (lit "hi"))]),
        (lit "annotations", .obj [(lit "bold", .bool true)])]))
      (lit "annotations") = none :=
  ((C10_sanitation_rebuild).1 (.obj [(lit "type", .str (lit "text")),
      (lit "text", .obj [(lit "content", .str (lit "hi"))]),
      (lit "annotations", .obj [(lit "bold", .bool true)])])
    (.obj [(lit "content", .str (lit "hi"))]) rfl rfl rfl).2.2
    (lit "annotations") (by decide) (by decide)

end MdNotion

namespace MdNotion

theorem runInv_init (t : Nat → Except ε α) (n c : Nat) :
    RunInv t n c (initRunState ε α n c) := by
  refine ⟨by simp [initRunState], by simp [initRunState], by simp [initRunState], ?_, ?_, ?_, ?_⟩
  · intro i a h
    rw [initRunState] at h
    simp [List.getElem?_replicate] at h
  · intro e h
    rw [initRunState] at h
    simp at h
  · intro i h
    rw [initRunState] at h
    simp at h
  · intro w i h
    rw [initRunState] at h
    simp [List.getElem?_replicate] at h

theorem runInv_step (t : Nat → Except ε α) (n c : Nat) (s s2 : RunState ε α)
    (hinv : RunInv t n c s) (hstep : RunStep t n s s2) : RunInv t n c s2 := by
  obtain ⟨hlen, hwlen, hnext, hres, hfail, hcover, hrun⟩ := hinv
  cases hstep with
  | claim w hw hn =>
    have hwlt : w < s.workers.length := by
      by_contra hge
      push_neg at hge
      rw [List.getElem?_eq_none hge] at hw
      exact Option.noConfusion hw
    refine ⟨hlen, by simpa using hwlen, hn, hres, hfail, ?_, ?_⟩
    · intro i hi
      simp only at hi
      by_cases hieq : i = s.nextIndex
      · subst hieq
        left
        exact ⟨w, List.getElem?_set_eq hwlt⟩
      · have hi2 : i < s.nextIndex := by omega
        rcases hcover i hi2 with ⟨w2, hw2⟩ | h | h
        · left
          have hwne : w2 ≠ w := by
            intro he
            rw [he, hw] at hw2
            exact WStatus.noConfusion (Option.some.inj hw2)
          exact ⟨w2, by rw [List.getElem?_set_ne (fun he => hwne he.symm)]; exact hw2⟩
        · right; left; exact h
        · right; right; exact h
    · intro w2 i h
      simp only at h ⊢
      by_cases hweq : w2 = w
      · subst hweq
        rw [List.getElem?_set_eq hwlt] at h
        have hieq := WStatus.running.inj (Option.some.inj h)
        omega
      · rw [List.getElem?_set_ne (fun he => hweq he.symm)] at h
        have := hrun w2 i h
        omega
  | finishOk w i a hw ht =>
    have hwlt : w < s.workers.length := by
      by_contra hge
      push_neg at hge
      rw [List.getElem?_eq_none hge] at hw
      exact Option.noConfusion hw
    have hilt : i < s.nextIndex := hrun w i hw
    have hireslt : i < s.results.length := by omega
    refine ⟨by simpa using hlen, by simpa using hwlen, hnext, ?_, hfail, ?_, ?_⟩
    · intro j b hj
      by_cases hij : i = j
      · subst hij
        rw [List.getElem?_set_eq hireslt] at hj
        have hab : a = b := Option.some.inj (Option.some.inj hj)
        rw [hab] at ht
        exact ht
      · rw [List.getElem?_set_ne hij] at hj
        exact hres j b hj
    · intro j hj
      simp only at hj
      by_cases hij : j = i
      · subst hij
        right; left
        exact ⟨a, List.getElem?_set_eq hireslt⟩
      · rcases hcover j hj with ⟨w2, hw2⟩ | h | h
        · have hwne : w2 ≠ w := by
            intro he
            rw [he, hw] at hw2
            have := WStatus.running.inj (Option.some.inj hw2)
            exact hij this.symm
          left
          exact ⟨w2, by rw [List.getElem?_set_ne (fun he => hwne he.symm)]; exact hw2⟩
        · obtain ⟨b, hb⟩ := h
          right; left
          exact ⟨b, by rw [List.getElem?_set_ne (fun he => hij he.symm)]; exact hb⟩
        · right; right; exact h
    · intro w2 j h
      simp only at h ⊢
      by_cases hweq : w2 = w
      · subst hweq
        rw [List.getElem?_set_eq hwlt] at h
        exact WStatus.noConfusion (Option.some.inj h)
      · rw [List.getElem?_set_ne (fun he => hweq he.symm)] at h
        exact hrun w2 j h
  | finishErr w i e hw ht =>
    have hwlt : w < s.workers.length := by
      by_contra hge
      push_neg at hge
      rw [List.getElem?_eq_none hge] at hw
      exact Option.noConfusion hw
    have hilt : i < s.nextIndex := hrun w i hw
    refine ⟨hlen, by simpa using hwlen, hnext, hres, ?_, ?_, ?_⟩
    · intro e2 he2
      simp only at he2
      rcases hf : s.failed with _ | e0
      · rw [hf] at he2
        simp at he2
        subst he2
        exact ⟨i, by omega, ht⟩
      · rw [hf] at he2
        simp at he2
        subst he2
        exact hfail e0 hf
    · intro j hj
      simp only at hj
      by_cases hij : j = i
      · subst hij
        right; right
        constructor
        · rcases s.failed with _ | e0 <;> simp
        · exact ⟨e, ht⟩
      · rcases hcover j hj with ⟨w2, hw2⟩ | h | h
        · have hwne : w2 ≠ w := by
            intro he
            rw [he, hw] at hw2
            have := WStatus.running.inj (Option.some.inj hw2)
            exact hij this.symm
          left
          exact ⟨w2, by rw [List.getElem?_set_ne (fun he => hwne he.symm)]; exact hw2⟩
        · right; left; exact h
        · right; right
          refine ⟨?_, h.2⟩
          rcases hf : s.failed with _ | e0 <;> simp [hf]
    · intro w2 j h
      simp only at h ⊢
      by_cases hweq : w2 = w
      · subst hweq
        rw [List.getElem?_set_eq hwlt] at h
        exact WStatus.noConfusion (Option.some.inj h)
      · rw [List.getElem?_set_ne (fun he => hweq he.symm)] at h
        exact hrun w2 j h

theorem runInv_reach (t : Nat → Except ε α) (n c : Nat) (s : RunState ε α)
    (h : RunReach t n c s) : RunInv t n c s := by
  induction h with
  | refl => exact runInv_init t n c
  | tail _ hstep ih => exact runInv_step t n c _ _ ih hstep

/-- C3: In every reachable state of the `runWithConcurrency` machine the
results array keeps the input length with task `i`'s slot at index `i`,
exactly `min concurrency n` workers exist so at most that many tasks are in
flight, a claimed task index is always in range, a completed run stores at
index `i` precisely the successful value of task `i` for every `i`
(independently of the interleaving taken), and a recorded failure is the
genuine error of some task rather than a suppressed partial result. -/
theorem C3_run_with_concurrency (t : Nat → Except ε α) (n c : Nat)
    (s : RunState ε α) (h : RunReach t n c s) :
    s.results.length = n ∧
    s.workers.length = min c n ∧
    runningCount s ≤ min c n ∧
    (∀ w i : Nat, s.workers[w]? = some (WStatus.running i) → i < n) ∧
    (RunDone n s →
      ∀ i : Nat, i < n → ∃ a, s.results[i]? = some (some a) ∧ t i = Except.ok a) ∧
    (∀ e, s.failed = some e → ∃ i, i < n ∧ t i = Except.error e) := by
  obtain ⟨hlen, hwlen, hnext, hres, hfail, hcover, hrun⟩ := runInv_reach t n c s h
  refine ⟨hlen, hwlen, ?_, ?_, ?_, hfail⟩
  · exact le_of_le_of_eq (List.length_filter_le _ _) hwlen
  · intro w i hw
    exact lt_of_lt_of_le (hrun w i hw) hnext
  · rintro ⟨hdone, hidle, hnofail⟩ i hi
    rcases hcover i (by omega) with ⟨w, hw⟩ | ⟨a, ha⟩ | ⟨hsome, _⟩
    · have hmem : WStatus.running i ∈ s.workers := by
        rcases List.getElem?_eq_some_iff.mp hw with ⟨hwl, hwe⟩
        exact hwe ▸ List.getElem_mem hwl
      exact absurd (hidle _ hmem) (by intro he; exact WStatus.noConfusion he)
    · exact ⟨a, ha, hres i a ha⟩
    · rw [hnofail] at hsome
      exact absurd hsome (by simp)

theorem C3_witness :
    (⟨1, [some 0], [WStatus.idle], none⟩ : RunState Nat Nat).results.length = 1 ∧
    (⟨1, [some 0], [WStatus.idle], none⟩ : RunState Nat Nat).workers.length = min 1 1 ∧
    runningCount (⟨1, [some 0], [WStatus.idle], none⟩ : RunState Nat Nat) ≤ min 1 1 ∧
    (∀ w i : Nat,
      (⟨1, [some 0], [WStatus.idle], none⟩ : RunState Nat Nat).workers[w]? =
        some (WStatus.running i) → i < 1) ∧
    (RunDone 1 (⟨1, [some 0], [WStatus.idle], none⟩ : RunState Nat Nat) →
      ∀ i : Nat, i < 1 → ∃ a,
        (⟨1, [some 0], [WStatus.idle], none⟩ : RunState Nat Nat).results[i]? =
          some (some a) ∧
        (fun j => (Except.ok j : Except Nat Nat)) i = Except.ok a) ∧
    (∀ e, (⟨1, [some 0], [WStatus.idle], none⟩ : RunState Nat Nat).failed = some e →
      ∃ i, i < 1 ∧ (fun j => (Except.ok j : Except Nat Nat)) i = Except.error e) := by
  refine C3_run_with_concurrency (fun j => (Except.ok j : Except Nat Nat)) 1 1 _ ?_
  have h1 : RunStep (fun j => (Except.ok j : Except Nat Nat)) 1
      (initRunState Nat Nat 1 1)
      ⟨1, [none], [WStatus.running 0], none⟩ :=
    RunStep.claim (initRunState Nat Nat 1 1) 0 rfl (by decide)
  have h2 : RunStep (fun j => (Except.ok j : Except Nat Nat)) 1
      (⟨1, [none], [WStatus.running 0], none⟩ : RunState Nat Nat)
      ⟨1, [some 0], [WStatus.idle], none⟩ :=
    RunStep.finishOk _ 0 0 0 rfl rfl
  exact Relation.ReflTransGen.tail (Relation.ReflTransGen.tail .refl h1) h2

/-! ## Codec round trip (claim C2) -/

theorem isWordChar_not_nl (c : Char) (h : isWordChar c = true) :
    c ≠ '\n' ∧ c ≠ '\r' := by
  constructor <;> rintro rfl <;> exact absurd h (by decide)

theorem isWordChar_not_dash (c : Char) (h : isWordChar c = true) : c ≠ '-' := by
  rintro rfl
  exact absurd h (by decide)

theorem jsTrim_head_ws (s : Str) :
    ∀ c, (jsTrim s).head? = some c → jsWhitespace c = false := by
  intro c hc
  unfold jsTrim at hc
  rw [List.head?_reverse] at hc
  have hne : (s.dropWhile jsWhitespace).reverse.dropWhile jsWhitespace ≠ [] := by
    intro he
    rw [he] at hc
    simp at hc
  rw [getLast?_dropWhile _ _ hne] at hc
  rw [List.getLast?_reverse] at hc
  exact head?_dropWhile_false _ _ c hc

theorem jsTrim_last_ws (s : Str) :
    ∀ c, (jsTrim s).getLast? = some c → jsWhitespace c = false := by
  intro c hc
  unfold jsTrim at hc
  rw [List.getLast?_reverse] at hc
  exact head?_dropWhile_false _ _ c hc

theorem takeWhile_dropWhile_append (p : Char → Bool) (k : Str) (x : Char)
    (r : Str) (hk : ∀ c ∈ k, p c = true) (hx : p x = false) :
    (k ++ x :: r).takeWhile p = k ∧ (k ++ x :: r).dropWhile p = x :: r := by
  induction k with
  | nil => simp [List.takeWhile_cons, List.dropWhile_cons, hx]
  | cons a as ih =>
    have ha : p a = true := hk a (List.mem_cons_self a as)
    have ih2 := ih (fun c hc => hk c (List.mem_cons_of_mem a hc))
    simp [List.takeWhile_cons, List.dropWhile_cons, ha, ih2.1, ih2.2]

theorem matchKeyLine_built (k v : Str) (hk : safeKey k) (hv : safeValue v) :
    matchKeyLine (k ++ ':' :: ' ' :: v) = some (k, v) := by
  obtain ⟨hk0, hkw⟩ := hk
  have h := takeWhile_dropWhile_append isWordChar k ':' (' ' :: v)
    (fun c hc => List.all_eq_true.mp hkw c hc) (by decide)
  simp only [matchKeyLine]
  rw [h.1, h.2]
  show (if k = [] then none
    else some (k, (' ' :: v).dropWhile jsWhitespace)) = some (k, v)
  rw [if_neg hk0]
  have hdw : (' ' :: v).dropWhile jsWhitespace = v := by
    rw [List.dropWhile_cons, if_pos (by decide)]
    exact dropWhile_eq_self_of_head _ _ (hv.2.2.1 ▸ jsTrim_head_ws v)
  rw [hdw]

theorem unquoteValue_safe (v : Str) (hv : safeValue v) : unquoteValue v = v := by
  unfold unquoteValue
  rw [if_neg]
  rintro (⟨h1, _⟩ | h2)
  · have hmem : '"' ∈ v := List.mem_of_mem_head? (by simp [h1])
    have := List.all_eq_true.mp hv.2.1 '"' hmem
    simp at this
  · exact hv.2.2.2 h2

theorem escapeYamlValue_safe (v : Str) (hv : safeValue v) :
    escapeYamlValue v = v := by
  unfold escapeYamlValue
  rw [if_neg]
  intro hany
  rw [List.any_eq_true] at hany
  obtain ⟨c, hc, hcprop⟩ := hany
  have hall := List.all_eq_true.mp hv.2.1 c hc
  simp only [decide_eq_true_eq] at hcprop hall
  push_neg at hall
  rcases hcprop with h | h | h | h
  · exact hall.1 h
  · exact hall.2.2.1 h
  · exact hall.2.2.2.1 h
  · exact hall.2.2.2.2 h

theorem splitLines_cons_ne (c : Char) (cs : Str) (h1 : c ≠ '\n')
    (h2 : c ≠ '\r') :
    splitLines (c :: cs) = match splitLines cs with
      | [] => [[c]]
      | l :: ls => (c :: l) :: ls := by
  rw [splitLines.eq_def]
  split
  · rename_i heq
    exact absurd heq (by simp)
  · rename_i heq
    rw [List.cons.injEq] at heq
    exact absurd heq.1 h2
  · rename_i heq
    rw [List.cons.injEq] at heq
    exact absurd heq.1 h1
  · rename_i heq
    rw [List.cons.injEq] at heq
    rw [heq.1, heq.2]

theorem splitLines_no_nl (l : Str) (h : ∀ c ∈ l, c ≠ '\n' ∧ c ≠ '\r') :
    splitLines l = [l] := by
  induction l with
  | nil => rfl
  | cons c cs ih =>
    rw [splitLines_cons_ne c cs (h c (List.mem_cons_self c cs)).1
      (h c (List.mem_cons_self c cs)).2]
    rw [ih (fun x hx => h x (List.mem_cons_of_mem c hx))]

theorem splitLines_append (l rest : Str) (h : ∀ c ∈ l, c ≠ '\n' ∧ c ≠ '\r') :
    splitLines (l ++ '\n' :: rest) = l :: splitLines rest := by
  induction l with
  | nil =>
    simp only [List.nil_append]
    rfl
  | cons c cs ih =>
    rw [List.cons_append, splitLines_cons_ne c _ (h c (List.mem_cons_self c cs)).1
      (h c (List.mem_cons_self c cs)).2]
    rw [ih (fun x hx => h x (List.mem_cons_of_mem c hx))]

theorem intercalate_nl_single (l : Str) : List.intercalate ['\n'] [l] = l := by
  simp [List.intercalate]

theorem intercalate_nl_cons2 (l l2 : Str) (ls : List Str) :
    List.intercalate ['\n'] (l :: l2 :: ls) =
      l ++ '\n' :: List.intercalate ['\n'] (l2 :: ls) := by
  simp [List.intercalate, List.intersperse]

theorem splitLines_intercalate (ls : List Str) (hne : ls ≠ [])
    (h : ∀ l ∈ ls, ∀ c ∈ l, c ≠ '\n' ∧ c ≠ '\r') :
    splitLines (List.intercalate ['\n'] ls) = ls := by
  induction ls with
  | nil => exact absurd rfl hne
  | cons l ls' ih =>
    cases ls' with
    | nil =>
      rw [intercalate_nl_single]
      exact splitLines_no_nl l (h l (List.mem_cons_self l []))
    | cons l2 ls'' =>
      rw [intercalate_nl_cons2,
        splitLines_append l _ (h l (List.mem_cons_self l (l2 :: ls''))),
        ih (by simp) (fun x hx => h x (List.mem_cons_of_mem l hx))]

theorem findClose_cons_skip (c : Char) (s : Str) (h1 : c ≠ '\n') (h2 : c ≠ '\r') :
    findClose (c :: s) = match findClose s with
      | none => none
      | some p => some (c :: p.1, p.2) := by
  simp only [findClose]
  rw [if_neg (fun hh => h2 hh.1), if_neg (fun hh => h1 hh.1)]

theorem findClose_append_skip (l s : Str) (hl : ∀ c ∈ l, c ≠ '\n' ∧ c ≠ '\r') :
    findClose (l ++ s) = match findClose s with
      | none => none
      | some p => some (l ++ p.1, p.2) := by
  induction l with
  | nil =>
    simp only [List.nil_append]
    cases findClose s <;> rfl
  | cons c cs ih =>
    rw [List.cons_append, findClose_cons_skip c _ (hl c (List.mem_cons_self c cs)).1
      (hl c (List.mem_cons_self c cs)).2]
    rw [ih (fun x hx => hl x (List.mem_cons_of_mem c hx))]
    cases findClose s <;> rfl

theorem findClose_at_close (body : Str) :
    findClose ('\n' :: '-' :: '-' :: '-' :: '\n' :: body) = some ([], body) := rfl

theorem findClose_cons_nl (t : Str) (h3 : t.take 3 ≠ ['-', '-', '-']) :
    findClose ('\n' :: t) = match findClose t with
      | none => none
      | some p => some ('\n' :: p.1, p.2) := by
  simp only [findClose]
  rw [if_neg (fun hh => absurd hh.1 (by decide)), if_neg (fun hh => h3 hh.2)]

theorem take3_ne_dashes (c0 : Char) (r : Str) (h : c0 ≠ '-') :
    (c0 :: r).take 3 ≠ ['-', '-', '-'] := by
  intro he
  have := congrArg List.head? he
  simp at this
  exact h this

theorem findClose_join (ls : List Str) (body : Str)
    (h : ∀ l ∈ ls, (∀ c ∈ l, c ≠ '\n' ∧ c ≠ '\r') ∧
      ∃ c0 r, l = c0 :: r ∧ c0 ≠ '-') :
    findClose (List.intercalate ['\n'] ls ++
        '\n' :: '-' :: '-' :: '-' :: '\n' :: body) =
      some (List.intercalate ['\n'] ls, body) := by
  induction ls with
  | nil => simpa [List.intercalate] using findClose_at_close body
  | cons l ls' ih =>
    cases ls' with
    | nil =>
      rw [intercalate_nl_single,
        findClose_append_skip l _ (h l (List.mem_cons_self l [])).1,
        findClose_at_close]
      simp
    | cons l2 ls'' =>
      rw [intercalate_nl_cons2, List.append_assoc, List.cons_append,
        findClose_append_skip l _ (h l (List.mem_cons_self l (l2 :: ls''))).1]
      obtain ⟨c0, r, hl2, hc0⟩ := (h l2 (by simp)).2
      have htake : (List.intercalate ['\n'] (l2 :: ls'') ++
          '\n' :: '-' :: '-' :: '-' :: '\n' :: body).take 3 ≠ ['-', '-', '-'] := by
        cases ls'' with
        | nil =>
          rw [intercalate_nl_single, hl2, List.cons_append]
          exact take3_ne_dashes c0 _ hc0
        | cons l3 ls3 =>
          rw [intercalate_nl_cons2, hl2, List.cons_append, List.cons_append]
          exact take3_ne_dashes c0 _ hc0
      rw [findClose_cons_nl _ htake,
        ih (fun x hx => h x (List.mem_cons_of_mem l hx))]

theorem foldl_congr_of_mem {β κ : Type} (l : List κ) (f g : β → κ → β) (a : β)
    (h : ∀ b x, x ∈ l → f b x = g b x) : l.foldl f a = l.foldl g a := by
  induction l generalizing a with
  | nil => rfl
  | cons x xs ih =>
    rw [List.foldl_cons, List.foldl_cons, h a x (List.mem_cons_self x xs)]
    exact ih _ (fun b y hy => h b y (List.mem_cons_of_mem x hy))

theorem recordSet_not_mem (acc : List (Str × Str)) (k v : Str)
    (h : acc.any (fun q => q.1 = k) = false) :
    recordSet acc k v = acc ++ [(k, v)] := by
  unfold recordSet
  rw [if_neg (by rw [h]; exact Bool.false_ne_true)]

theorem foldl_recordSet_eq_append (ps : List (Str × Str)) :
    ∀ acc : List (Str × Str), (ps.map Prod.fst).Nodup →
    (∀ p ∈ ps, acc.any (fun q => q.1 = p.1) = false) →
    ps.foldl (fun d p => recordSet d p.1 p.2) acc = acc ++ ps := by
  induction ps with
  | nil => intro acc _ _; simp
  | cons p ps' ih =>
    intro acc hnodup hdisj
    rw [List.foldl_cons, recordSet_not_mem acc p.1 p.2
      (hdisj p (List.mem_cons_self p ps')), Prod.mk.eta]
    have hkey : p.1 ∉ ps'.map Prod.fst := by
      rw [List.map_cons] at hnodup
      exact (List.nodup_cons.mp hnodup).1
    rw [ih (acc ++ [p]) (by rw [List.map_cons] at hnodup; exact (List.nodup_cons.mp hnodup).2) ?_]
    · rw [List.append_assoc]
      rfl
    · intro q hq
      rw [List.any_append]
      have hq1 : ¬(p.1 = q.1) := by
        intro he
        exact hkey (he ▸ List.mem_map_of_mem Prod.fst hq)
      simp [hdisj q (List.mem_cons_of_mem p hq), hq1]

theorem recordGet_recordSet (m : List (Str × Str)) (k v : Str) :
    recordGet (recordSet m k v) k = some v := by
  unfold recordSet
  split_ifs with hk
  · induction m with
    | nil => simp at hk
    | cons q qs ih =>
      obtain ⟨qk, qv⟩ := q
      simp only [List.map_cons]
      by_cases hq : qk = k
      · rw [if_pos (by simpa using hq)]
        simp [recordGet]
      · rw [if_neg (by simpa using hq)]
        simp only [recordGet]
        rw [if_neg hq]
        apply ih
        simp only [List.any_cons] at hk
        simpa [hq] using hk
  · induction m with
    | nil => simp [recordGet]
    | cons q qs ih =>
      obtain ⟨qk, qv⟩ := q
      simp only [List.any_cons, Bool.or_eq_true] at hk
      push_neg at hk
      rw [List.cons_append]
      simp only [recordGet]
      rw [if_neg (by simpa using hk.1)]
      exact ih (by simpa using hk.2)

theorem mem_recordSet (m : List (Str × Str)) (k v : Str) (p : Str × Str)
    (hp : p ∈ recordSet m k v) : p ∈ m ∨ p = (k, v) := by
  unfold recordSet at hp
  split_ifs at hp with hk
  · rw [List.mem_map] at hp
    obtain ⟨q, hq, he⟩ := hp
    by_cases hqk : q.1 = k
    · rw [if_pos hqk] at he
      right
      exact he.symm
    · rw [if_neg hqk] at he
      left
      exact he ▸ hq
  · rw [List.mem_append] at hp
    rcases hp with h | h
    · left; exact h
    · right; simpa using h

theorem recordSet_keys_nodup (m : List (Str × Str)) (k v : Str)
    (h : (m.map Prod.fst).Nodup) : ((recordSet m k v).map Prod.fst).Nodup := by
  unfold recordSet
  split_ifs with hk
  · rw [List.map_map]
    have he : m.map (Prod.fst ∘ fun p => if p.1 = k then (k, v) else p) =
        m.map Prod.fst := by
      apply List.map_congr_left
      intro p _
      by_cases hpk : p.1 = k
      · simp [Function.comp, hpk]
      · simp [Function.comp, hpk]
    rw [he]
    exact h
  · rw [List.map_append]
    have hkn : k ∉ m.map Prod.fst := by
      intro hkm
      rw [List.mem_map] at hkm
      obtain ⟨q, hq, he⟩ := hkm
      exact hk (List.any_eq_true.mpr ⟨q, hq, by simp [he]⟩)
    exact List.Nodup.append h (List.nodup_singleton k)
      (fun a ha hb => hkn (by rwa [List.mem_singleton.mp hb] at ha))

theorem recordSet_ne_nil (m : List (Str × Str)) (k v : Str) :
    recordSet m k v ≠ [] := by
  unfold recordSet
  split_ifs with hk
  · cases m with
    | nil => simp at hk
    | cons q qs => simp
  · simp

theorem parseFrontmatterBlock_lines (ps : List (Str × Str))
    (hps : ∀ p ∈ ps, safeKey p.1 ∧ safeValue p.2)
    (hnodup : (ps.map Prod.fst).Nodup) (hne : ps ≠ []) :
    parseFrontmatterBlock
      (List.intercalate ['\n'] (ps.map (fun p => p.1 ++ ':' :: ' ' :: p.2))) =
      ps := by
  unfold parseFrontmatterBlock
  rw [splitLines_intercalate _ (by simpa using hne) ?_]
  · rw [List.foldl_map]
    rw [foldl_congr_of_mem ps _ (fun d p => recordSet d p.1 p.2) [] ?_]
    · simpa using foldl_recordSet_eq_append ps [] hnodup (by simp)
    · intro b p hp
      obtain ⟨hkp, hvp⟩ := hps p hp
      rw [matchKeyLine_built p.1 p.2 hkp hvp]
      simp only
      rw [hvp.2.2.1, unquoteValue_safe p.2 hvp]
  · intro l hl
    rw [List.mem_map] at hl
    obtain ⟨p, hp, he⟩ := hl
    obtain ⟨⟨_, hkw⟩, hv⟩ := hps p hp
    intro c hc
    rw [← he] at hc
    rw [List.mem_append] at hc
    rcases hc with hc | hc
    · exact isWordChar_not_nl c (List.all_eq_true.mp hkw c hc)
    · rw [List.mem_cons] at hc
      rcases hc with rfl | hc
      · exact ⟨by decide, by decide⟩
      · rw [List.mem_cons] at hc
        rcases hc with rfl | hc
        · exact ⟨by decide, by decide⟩
        · have := List.all_eq_true.mp hv.2.1 c hc
          simp only [decide_eq_true_eq] at this
          push_neg at this
          exact ⟨this.1, this.2.1⟩


/-- Claim C2 (amended): the encode/decode round trip is the identity
whenever the header mapping has distinct word-character keys and every
value — as well as the (necessarily non-empty) identifier — is transported
verbatim by the codec: non-empty, free of newline, carriage return, double
quote, backslash and colon, without surrounding whitespace and not wrapped
in single quotes. Decoding the encoding then yields the original body, a
`notionPageId` equal to the identifier, and a mapping equal to the input
with the reserved key `notion_page_id` set to the identifier. -/
theorem C2_identity_roundtrip (body id : Str) (data : List (Str × Str))
    (hnodup : (data.map Prod.fst).Nodup)
    (hsafe : ∀ p ∈ data, safeKey p.1 ∧ safeValue p.2)
    (hid : safeValue id) :
    parseMdWithNotionId (stringifyMdWithNotionId body data id) =
      ⟨body, some id, recordSet data notionPageIdKey id⟩ := by
  obtain ⟨d, hd⟩ : ∃ d, recordSet data notionPageIdKey id = d := ⟨_, rfl⟩
  have hmem : ∀ p ∈ d, safeKey p.1 ∧ safeValue p.2 := by
    intro p hp
    rw [← hd] at hp
    rcases mem_recordSet data notionPageIdKey id p hp with h | h
    · exact hsafe p h
    · rw [h]
      refine ⟨?_, hid⟩
      show safeKey notionPageIdKey
      exact ⟨by decide, by decide⟩
  have hdnodup : (d.map Prod.fst).Nodup :=
    hd ▸ recordSet_keys_nodup data notionPageIdKey id hnodup
  have hdne : d ≠ [] := hd ▸ recordSet_ne_nil data notionPageIdKey id
  obtain ⟨L, hL⟩ : ∃ L, d.map (fun p => p.1 ++ ':' :: ' ' :: p.2) = L := ⟨_, rfl⟩
  have hLne : L ≠ [] := by
    rw [← hL]
    simp [hdne]
  have hfilter : d.filter (fun p => p.2 ≠ []) = d :=
    List.filter_eq_self.mpr (fun p hp => by simp [(hmem p hp).2.1])
  have hlines : d.map (fun p => p.1 ++ ':' :: ' ' :: escapeYamlValue p.2) = L := by
    rw [← hL]
    exact List.map_congr_left
      (fun p hp => by rw [escapeYamlValue_safe p.2 (hmem p hp).2])
  have hstr : stringifyMdWithNotionId body data id =
      '-' :: '-' :: '-' :: '\n' ::
        (List.intercalate ['\n'] L ++
          '\n' :: '-' :: '-' :: '-' :: '\n' :: body) := by
    simp only [stringifyMdWithNotionId]
    rw [hd, hfilter, hlines, if_neg hLne]
    simp only [List.cons_append, List.nil_append, List.append_assoc]
  have hlinesafe : ∀ l ∈ L,
      (∀ c ∈ l, c ≠ '\n' ∧ c ≠ '\r') ∧ ∃ c0 r, l = c0 :: r ∧ c0 ≠ '-' := by
    intro l hl
    rw [← hL, List.mem_map] at hl
    obtain ⟨p, hp, he⟩ := hl
    obtain ⟨⟨hk0, hkw⟩, hv⟩ := hmem p hp
    constructor
    · intro c hc
      rw [← he, List.mem_append] at hc
      rcases hc with hc | hc
      · exact isWordChar_not_nl c (List.all_eq_true.mp hkw c hc)
      · rw [List.mem_cons] at hc
        rcases hc with rfl | hc
        · exact ⟨by decide, by decide⟩
        · rw [List.mem_cons] at hc
          rcases hc with rfl | hc
          · exact ⟨by decide, by decide⟩
          · have := List.all_eq_true.mp hv.2.1 c hc
            simp only [decide_eq_true_eq] at this
            push_neg at this
            exact ⟨this.1, this.2.1⟩
    · cases hp1 : p.1 with
      | nil => exact absurd hp1 hk0
      | cons c0 cs =>
        refine ⟨c0, cs ++ ':' :: ' ' :: p.2, ?_, ?_⟩
        · rw [← he, hp1, List.cons_append]
        · exact isWordChar_not_dash c0 (List.all_eq_true.mp hkw c0
            (by rw [hp1]; exact List.mem_cons_self c0 cs))
  have hmf : matchFrontmatter (stringifyMdWithNotionId body data id) =
      some (List.intercalate ['\n'] L, body) := by
    rw [hstr]
    unfold matchFrontmatter
    rw [dropWhile_eq_self_of_head jsWhitespace _ (fun c hc => by
      simp only [List.head?_cons, Option.some.injEq] at hc
      rw [← hc]
      decide)]
    show findClose (List.intercalate ['\n'] L ++
      '\n' :: '-' :: '-' :: '-' :: '\n' :: body) = _
    exact findClose_join L body hlinesafe
  have hpf := parseFrontmatterBlock_lines d hmem hdnodup hdne
  rw [hL] at hpf
  have hrg : recordGet d notionPageIdKey = some id := by
    rw [← hd]
    exact recordGet_recordSet data notionPageIdKey id
  rw [hd]
  simp only [parseMdWithNotionId, hmf, hpf, hrg]
  rw [hid.2.2.1, if_pos hid.1]

/-- Claim C2 counterexample: with the empty body, the header mapping
`{a: ""}` and the non-empty identifier `"x"`, the decoded mapping of the
encoded document is not the input mapping with the reserved key set:
`stringifyMdWithNotionId` drops the empty-valued key `a`, so the round trip
loses it. -/
theorem C2_counterexample :
    (parseMdWithNotionId
        (stringifyMdWithNotionId [] [(lit "a", [])] (lit "x"))).data ≠
      recordSet [(lit "a", [])] notionPageIdKey (lit "x") := by
  decide

/-- Witness for claim C2: a concrete safe mapping round-trips exactly. -/
theorem C2_witness :
    parseMdWithNotionId
        (stringifyMdWithNotionId (lit "B") [(lit "a", lit "b")] (lit "x")) =
      ⟨lit "B", some (lit "x"),
        recordSet [(lit "a", lit "b")] notionPageIdKey (lit "x")⟩ :=
  C2_identity_roundtrip (lit "B") (lit "x") [(lit "a", lit "b")]
    (by decide) (by decide) (by decide)

end MdNotion
